import Mathlib

/-!
# Verification of the fully-global affine-gap alignment engine (Unicycler)

The repository ships only the interface header `src/unicycler/include/global_align.h`,
which declares `fullyGlobalAlignment` (two sequences, four integer scoring
parameters, an optional banding flag with `bandSize` defaulting to 1000).
The dynamic-programming engine, traceback reconstructor and result entity
behind that declaration are not part of the provided sources, so every
definition below that goes beyond the header is modelled from the
specification (Gotoh three-state affine-gap recurrence, diagonal banding,
Diagonal > GapInFirst > GapInSecond tie-breaking, run-length-encoded
operation list).
-/

namespace GlobalAlign

/-- The four kinds of alignment operation of the data model:
`Match`/`Mismatch` consume one symbol of each sequence, `InsertionInFirst`
consumes a symbol of the first sequence only, `InsertionInSecond` a symbol
of the second sequence only. -/
inductive OpKind where
  | Match
  | Mismatch
  | InsertionInFirst
  | InsertionInSecond
deriving DecidableEq, Repr

/-- The three Gotoh states: `D` (Diagonal, alignment ends in a
match/mismatch), `F` (GapInFirst, ends consuming the first sequence in a
gap), `G` (GapInSecond, ends consuming the second sequence in a gap). -/
inductive GState where
  | D
  | F
  | G
deriving DecidableEq, Repr

/-- Modelled from the spec: `ScoreModel`, the pure value object holding the
four scoring parameters (the implementation behind the header is not in the
sources). -/
structure ScoreModel where
  matchScore : Int
  mismatchScore : Int
  gapOpenScore : Int
  gapExtensionScore : Int
deriving DecidableEq, Repr

/-- Modelled from the spec: `substitutionScore(a, b) = matchScore` when the
symbols are equal, `mismatchScore` otherwise. -/
def substitutionScore (sm : ScoreModel) (a b : Char) : Int :=
  if a = b then sm.matchScore else sm.mismatchScore

/-- Modelled from the spec: total cost of a contiguous gap run of length
`L ≥ 1`: `gapOpenScore + (L-1) * gapExtensionScore` (the value at length 0
is junk; the spec declares it undefined there). -/
def gapCost (sm : ScoreModel) (L : Nat) : Int :=
  sm.gapOpenScore + ((L : Int) - 1) * sm.gapExtensionScore

/-! ## Option-valued scores

Cells outside the active band (and states unreachable in a fully global
alignment, such as Diagonal on the base row) carry score `-infinity`; this
is embedded as `none`. -/

/-- Add an integer to an optional score; `none` absorbs. -/
def oadd : Option Int → Int → Option Int
  | none, _ => none
  | some a, b => some (a + b)

/-- Maximum of two optional scores; `none` is the identity (`-infinity`). -/
def omax : Option Int → Option Int → Option Int
  | none, y => y
  | some a, none => some a
  | some a, some b => some (max a b)

/-- Order on optional scores with `none` as bottom. -/
def ole : Option Int → Option Int → Prop
  | none, _ => True
  | some _, none => False
  | some a, some b => a ≤ b

instance instDecidableOle : (x y : Option Int) → Decidable (ole x y)
  | none, _ => .isTrue trivial
  | some _, none => .isFalse (fun h => h)
  | some a, some b => (inferInstance : Decidable (a ≤ b))

/-- Modelled from the spec: the parameters of one alignment-engine
invocation — the two sequences, the score model and the optional band,
given as the inclusive range `[lo, hi]` of diagonals `j - i` kept in the
search space (`none` means unbanded). -/
structure AlignParams where
  s1 : List Char
  s2 : List Char
  sm : ScoreModel
  band : Option (Int × Int)
deriving DecidableEq, Repr

/-- Cell `(i, j)` is inside the active band (always true when unbanded). -/
def inB (P : AlignParams) (i j : Nat) : Prop :=
  match P.band with
  | none => True
  | some (lo, hi) => lo ≤ (j : Int) - (i : Int) ∧ (j : Int) - (i : Int) ≤ hi

instance instDecidableInB (P : AlignParams) (i j : Nat) : Decidable (inB P i j) :=
  match h : P.band with
  | none => .isTrue (by simp [inB, h])
  | some (lo, hi) =>
      decidable_of_iff (lo ≤ (j : Int) - (i : Int) ∧ (j : Int) - (i : Int) ≤ hi)
        (by simp [inB, h])

/-- Symbol of the first sequence consumed by the diagonal step into row
`i + 1` (a junk default beyond the end; the engine never reads there). -/
def ch1 (P : AlignParams) (i : Nat) : Char := P.s1.getD i '?'

/-- Symbol of the second sequence consumed by the diagonal step into column
`j + 1`. -/
def ch2 (P : AlignParams) (j : Nat) : Char := P.s2.getD j '?'

/-- Modelled from the spec: the three Gotoh dynamic-programming tables, as a
fuel-indexed structural recursion (the fuel is an upper bound on `i + j`;
`val` below instantiates it).  `D(0,0) = 0` seeds the tables; the base
row/column gap costs arise from the recurrence.  Cells outside the band and
states with no valid predecessor are `none` (`-infinity`). -/
def valF (P : AlignParams) : Nat → GState → Nat → Nat → Option Int
  | _, .D, 0, 0 => if inB P 0 0 then some 0 else none
  | f+1, .D, i+1, j+1 =>
      if inB P (i+1) (j+1) then
        oadd (omax (valF P f .D i j) (omax (valF P f .F i j) (valF P f .G i j)))
          (substitutionScore P.sm (ch1 P i) (ch2 P j))
      else none
  | f+1, .F, i+1, j =>
      if inB P (i+1) j then
        omax (oadd (valF P f .D i j) P.sm.gapOpenScore)
          (oadd (valF P f .F i j) P.sm.gapExtensionScore)
      else none
  | f+1, .G, i, j+1 =>
      if inB P i (j+1) then
        omax (oadd (valF P f .D i j) P.sm.gapOpenScore)
          (oadd (valF P f .G i j) P.sm.gapExtensionScore)
      else none
  | _, _, _, _ => none

/-- Value of state `st` at cell `(i, j)` of the dynamic-programming tables. -/
def val (P : AlignParams) (st : GState) (i j : Nat) : Option Int :=
  valF P (i + j) st i j

/-! ## Traceback -/

/-- Modelled from the spec: predecessor-state selection with the fixed
priority order Diagonal > GapInFirst > GapInSecond on ties. -/
def pick3 (d f g : Option Int) : GState :=
  if ole f d ∧ ole g d then .D else if ole g f then .F else .G

/-- Predecessor of a `GapInFirst` cell `(i+1, j)`: compare opening a gap
from Diagonal at `(i, j)` with extending the gap from GapInFirst at
`(i, j)`; ties prefer Diagonal. -/
def pickF (P : AlignParams) (i j : Nat) : GState :=
  if ole (oadd (val P .F i j) P.sm.gapExtensionScore)
         (oadd (val P .D i j) P.sm.gapOpenScore) then .D else .F

/-- Predecessor of a `GapInSecond` cell `(i, j+1)`; ties prefer Diagonal. -/
def pickG (P : AlignParams) (i j : Nat) : GState :=
  if ole (oadd (val P .G i j) P.sm.gapExtensionScore)
         (oadd (val P .D i j) P.sm.gapOpenScore) then .D else .G

/-- Operation unit emitted by a diagonal step into cell `(i+1, j+1)`. -/
def diagKind (P : AlignParams) (i j : Nat) : OpKind :=
  if ch1 P i = ch2 P j then .Match else .Mismatch

/-- Modelled from the spec: the traceback walk.  Starting from cell
`(i, j)` in state `st` it prepends the operation unit that entered the cell
and follows the preferred predecessor, accumulating the units left-to-right
in `acc`.  The fuel is an upper bound on `i + j`.  The rows `(i, 0)` in
state `D`/`G` and columns `(0, j)` in state `D`/`F` have no valid
predecessor (`-infinity` cells); the fallbacks there keep the walk total
but are never reached from a cell holding a finite score. -/
def tbF (P : AlignParams) : Nat → GState → Nat → Nat → List OpKind → List OpKind
  | 0, _, _, _, acc => acc
  | _+1, _, 0, 0, acc => acc
  | f+1, .D, i+1, j+1, acc =>
      tbF P f (pick3 (val P .D i j) (val P .F i j) (val P .G i j)) i j
        (diagKind P i j :: acc)
  | f+1, .D, i+1, 0, acc => tbF P f .D i 0 (.InsertionInFirst :: acc)
  | f+1, .D, 0, j+1, acc => tbF P f .D 0 j (.InsertionInSecond :: acc)
  | f+1, .F, i+1, j, acc => tbF P f (pickF P i j) i j (.InsertionInFirst :: acc)
  | f+1, .F, 0, j+1, acc => tbF P f .D 0 j (.InsertionInSecond :: acc)
  | f+1, .G, i, j+1, acc => tbF P f (pickG P i j) i j (.InsertionInSecond :: acc)
  | f+1, .G, i+1, 0, acc => tbF P f .D i 0 (.InsertionInFirst :: acc)

/-- Run-length encoding of the unit list into `(kind, length)` operations. -/
def rle : List OpKind → List (OpKind × Nat)
  | [] => []
  | k :: rest =>
      match rle rest with
      | [] => [(k, 1)]
      | (k', n) :: t => if k = k' then (k, n + 1) :: t else (k, 1) :: (k', n) :: t

/-! ## Result entity and entry point -/

/-- Modelled from the spec: the `ScoredAlignment` result entity — total
score plus the ordered, run-length-encoded operation sequence. -/
structure ScoredAlignment where
  score : Int
  operations : List (OpKind × Nat)
deriving DecidableEq, Repr

/-- Modelled from the spec: the error taxonomy of the engine.
`allocationFailure` exists in the taxonomy but a shallow model's table
allocation always succeeds, so the model never produces it. -/
inductive AlignError where
  | invalidParameter
  | allocationFailure
deriving DecidableEq, Repr

/-- The active band for one invocation: unbanded, or the diagonal corridor
`[-bandSize, bandSize]` widened just enough to contain the terminal
diagonal `|s2| - |s1|` (Scenario D of the spec requires a banded run to
return a full-coverage global alignment even when `bandSize` is smaller
than the length difference). -/
def mkBand (useBanding : Bool) (bandSize : Int) (delta : Int) : Option (Int × Int) :=
  if useBanding then some (min (-bandSize) delta, max bandSize delta) else none

/-- The parameter record one invocation of the engine works with. -/
def runParams (s1 s2 : List Char) (sm : ScoreModel) (useBanding : Bool)
    (bandSize : Int) : AlignParams :=
  ⟨s1, s2, sm, mkBand useBanding bandSize ((s2.length : Int) - (s1.length : Int))⟩

/-- The optimum of the three states at the bottom-right corner. -/
def cornerBest (P : AlignParams) : Option Int :=
  omax (val P .D P.s1.length P.s2.length)
    (omax (val P .F P.s1.length P.s2.length) (val P .G P.s1.length P.s2.length))

/-- State the traceback starts from (priority Diagonal > GapInFirst >
GapInSecond among the corner optima). -/
def cornerState (P : AlignParams) : GState :=
  pick3 (val P .D P.s1.length P.s2.length) (val P .F P.s1.length P.s2.length)
    (val P .G P.s1.length P.s2.length)

/-- Modelled from the spec: the engine behind the header declaration
`fullyGlobalAlignment(s1, s2, matchScore, mismatchScore, gapOpenScore,
gapExtensionScore, useBanding=false, bandSize=1000)` — validate the band
width, fill the three Gotoh tables, read the optimum at the bottom-right
corner (priority Diagonal > GapInFirst > GapInSecond) and reconstruct the
run-length-encoded operation list by traceback. -/
def fullyGlobalAlignment (s1 s2 : List Char)
    (matchScore mismatchScore gapOpenScore gapExtensionScore : Int)
    (useBanding : Bool := false) (bandSize : Int := 1000) :
    Except AlignError ScoredAlignment :=
  if useBanding = true ∧ bandSize < 1 then .error .invalidParameter
  else
    let P : AlignParams := runParams s1 s2
      ⟨matchScore, mismatchScore, gapOpenScore, gapExtensionScore⟩ useBanding bandSize
    .ok ⟨(cornerBest P).getD 0,
      rle (tbF P (s1.length + s2.length) (cornerState P) s1.length s2.length [])⟩

/-! ## Basic facts about optional scores -/

theorem oadd_none (c : Int) : oadd none c = none := rfl

theorem oadd_some (a c : Int) : oadd (some a) c = some (a + c) := rfl

theorem ole_none_left (x : Option Int) : ole none x := trivial

theorem ole_refl (x : Option Int) : ole x x := by
  cases x <;> simp [ole]

theorem omax_eq_left_of_ole {x y : Option Int} (h : ole y x) : omax x y = x := by
  cases x <;> cases y <;> simp_all [ole, omax] <;> omega

theorem omax_eq_right_of_not_ole {x y : Option Int} (h : ¬ ole y x) : omax x y = y := by
  cases x <;> cases y <;> simp_all [ole, omax] <;> omega

theorem omax_le {x y z : Option Int} (hx : ole x z) (hy : ole y z) : ole (omax x y) z := by
  cases x <;> cases y <;> cases z <;> simp_all [ole, omax] <;> omega

theorem ole_oadd_oadd {x y : Option Int} (c : Int) (h : ole x y) :
    ole (oadd x c) (oadd y c) := by
  cases x <;> cases y <;> simp_all [ole, oadd] <;> omega

theorem oadd_le_some {x : Option Int} {b c c' : Int} (h : ole x (some b)) (hc : c ≤ c') :
    ole (oadd x c) (some (b + c')) := by
  cases x <;> simp_all [ole, oadd] <;> omega

theorem omax_ole_omax {a b c d : Option Int} (h1 : ole a c) (h2 : ole b d) :
    ole (omax a b) (omax c d) := by
  cases a <;> cases b <;> cases c <;> cases d <;> simp_all [ole, omax] <;> omega

theorem omax_isSome_left (a : Int) (y : Option Int) : ∃ c, omax (some a) y = some c := by
  cases y <;> simp [omax]

theorem omax_isSome_right (x : Option Int) (b : Int) : ∃ c, omax x (some b) = some c := by
  cases x <;> simp [omax]

theorem ole_some_of_omax_eq_some {x y : Option Int} {v : Int} (h : omax x y = some v) :
    ole x (some v) ∧ ole y (some v) := by
  cases x <;> cases y <;> simp_all [ole, omax] <;> omega

/-! ## The fuel is irrelevant above `i + j` -/

theorem valF_D00 (P : AlignParams) (f : Nat) :
    valF P f .D 0 0 = if inB P 0 0 then some 0 else none := by
  cases f <;> rfl

theorem valF_D_i0 (P : AlignParams) (f i : Nat) : valF P f .D (i+1) 0 = none := by
  cases f <;> rfl

theorem valF_D_0j (P : AlignParams) (f j : Nat) : valF P f .D 0 (j+1) = none := by
  cases f <;> rfl

theorem valF_F_0j (P : AlignParams) (f j : Nat) : valF P f .F 0 j = none := by
  cases f <;> cases j <;> rfl

theorem valF_G_i0 (P : AlignParams) (f i : Nat) : valF P f .G i 0 = none := by
  cases f <;> cases i <;> rfl

theorem valF_D_succ (P : AlignParams) (f i j : Nat) :
    valF P (f+1) .D (i+1) (j+1) =
      if inB P (i+1) (j+1) then
        oadd (omax (valF P f .D i j) (omax (valF P f .F i j) (valF P f .G i j)))
          (substitutionScore P.sm (ch1 P i) (ch2 P j))
      else none := rfl

theorem valF_F_succ (P : AlignParams) (f i j : Nat) :
    valF P (f+1) .F (i+1) j =
      if inB P (i+1) j then
        omax (oadd (valF P f .D i j) P.sm.gapOpenScore)
          (oadd (valF P f .F i j) P.sm.gapExtensionScore)
      else none := rfl

theorem valF_G_succ (P : AlignParams) (f i j : Nat) :
    valF P (f+1) .G i (j+1) =
      if inB P i (j+1) then
        omax (oadd (valF P f .D i j) P.sm.gapOpenScore)
          (oadd (valF P f .G i j) P.sm.gapExtensionScore)
      else none := rfl

theorem valF_fuel (P : AlignParams) :
    ∀ n f1 f2 : Nat, ∀ st : GState, ∀ i j : Nat, i + j = n → i + j ≤ f1 → i + j ≤ f2 →
      valF P f1 st i j = valF P f2 st i j := by
  intro n
  induction n using Nat.strong_induction_on with
  | _ n IH =>
    intro f1 f2 st i j hn h1 h2
    match st, i, j with
    | .D, 0, 0 => rw [valF_D00, valF_D00]
    | .D, i+1, 0 => rw [valF_D_i0, valF_D_i0]
    | .D, 0, j+1 => rw [valF_D_0j, valF_D_0j]
    | .F, 0, j => rw [valF_F_0j, valF_F_0j]
    | .G, i, 0 => rw [valF_G_i0, valF_G_i0]
    | .D, i+1, j+1 =>
      obtain ⟨a, rfl⟩ : ∃ a, f1 = a + 1 := ⟨f1 - 1, by omega⟩
      obtain ⟨b, rfl⟩ : ∃ b, f2 = b + 1 := ⟨f2 - 1, by omega⟩
      rw [valF_D_succ, valF_D_succ]
      have e1 : valF P a .D i j = valF P b .D i j :=
        IH (i + j) (by omega) a b .D i j rfl (by omega) (by omega)
      have e2 : valF P a .F i j = valF P b .F i j :=
        IH (i + j) (by omega) a b .F i j rfl (by omega) (by omega)
      have e3 : valF P a .G i j = valF P b .G i j :=
        IH (i + j) (by omega) a b .G i j rfl (by omega) (by omega)
      rw [e1, e2, e3]
    | .F, i+1, j =>
      obtain ⟨a, rfl⟩ : ∃ a, f1 = a + 1 := ⟨f1 - 1, by omega⟩
      obtain ⟨b, rfl⟩ : ∃ b, f2 = b + 1 := ⟨f2 - 1, by omega⟩
      rw [valF_F_succ, valF_F_succ]
      have e1 : valF P a .D i j = valF P b .D i j :=
        IH (i + j) (by omega) a b .D i j rfl (by omega) (by omega)
      have e2 : valF P a .F i j = valF P b .F i j :=
        IH (i + j) (by omega) a b .F i j rfl (by omega) (by omega)
      rw [e1, e2]
    | .G, i, j+1 =>
      obtain ⟨a, rfl⟩ : ∃ a, f1 = a + 1 := ⟨f1 - 1, by omega⟩
      obtain ⟨b, rfl⟩ : ∃ b, f2 = b + 1 := ⟨f2 - 1, by omega⟩
      rw [valF_G_succ, valF_G_succ]
      have e1 : valF P a .D i j = valF P b .D i j :=
        IH (i + j) (by omega) a b .D i j rfl (by omega) (by omega)
      have e2 : valF P a .G i j = valF P b .G i j :=
        IH (i + j) (by omega) a b .G i j rfl (by omega) (by omega)
      rw [e1, e2]

theorem valF_eq_val (P : AlignParams) (f : Nat) (st : GState) (i j : Nat)
    (h : i + j ≤ f) : valF P f st i j = val P st i j :=
  valF_fuel P (i + j) f (i + j) st i j rfl h le_rfl

/-! ## Recurrence equations for `val` -/

theorem val_D00 (P : AlignParams) :
    val P .D 0 0 = if inB P 0 0 then some 0 else none := valF_D00 P 0

theorem val_D_i0 (P : AlignParams) (i : Nat) : val P .D (i+1) 0 = none := valF_D_i0 P _ i

theorem val_D_0j (P : AlignParams) (j : Nat) : val P .D 0 (j+1) = none := valF_D_0j P _ j

theorem val_F_0j (P : AlignParams) (j : Nat) : val P .F 0 j = none := valF_F_0j P _ j

theorem val_G_i0 (P : AlignParams) (i : Nat) : val P .G i 0 = none := valF_G_i0 P _ i

theorem val_D_succ (P : AlignParams) (i j : Nat) :
    val P .D (i+1) (j+1) =
      if inB P (i+1) (j+1) then
        oadd (omax (val P .D i j) (omax (val P .F i j) (val P .G i j)))
          (substitutionScore P.sm (ch1 P i) (ch2 P j))
      else none := by
  have h0 : val P .D (i+1) (j+1) = valF P ((i + j + 1) + 1) .D (i+1) (j+1) := by
    unfold val
    have hf : (i+1) + (j+1) = (i + j + 1) + 1 := by omega
    rw [hf]
  rw [h0, valF_D_succ, valF_eq_val P (i + j + 1) .D i j (by omega),
    valF_eq_val P (i + j + 1) .F i j (by omega),
    valF_eq_val P (i + j + 1) .G i j (by omega)]

theorem val_F_succ (P : AlignParams) (i j : Nat) :
    val P .F (i+1) j =
      if inB P (i+1) j then
        omax (oadd (val P .D i j) P.sm.gapOpenScore)
          (oadd (val P .F i j) P.sm.gapExtensionScore)
      else none := by
  have h0 : val P .F (i+1) j = valF P ((i + j) + 1) .F (i+1) j := by
    unfold val
    have hf : (i+1) + j = (i + j) + 1 := by omega
    rw [hf]
  rw [h0, valF_F_succ, valF_eq_val P (i + j) .D i j le_rfl,
    valF_eq_val P (i + j) .F i j le_rfl]

theorem val_G_succ (P : AlignParams) (i j : Nat) :
    val P .G i (j+1) =
      if inB P i (j+1) then
        omax (oadd (val P .D i j) P.sm.gapOpenScore)
          (oadd (val P .G i j) P.sm.gapExtensionScore)
      else none := by
  have h0 : val P .G i (j+1) = valF P ((i + j) + 1) .G i (j+1) := by
    unfold val
    have hf : i + (j+1) = (i + j) + 1 := by omega
    rw [hf]
  rw [h0, valF_G_succ, valF_eq_val P (i + j) .D i j le_rfl,
    valF_eq_val P (i + j) .G i j le_rfl]

/-! ## Independent re-scoring of an operation sequence -/

/-- Does the kind consume a symbol of the first sequence? -/
def consumesFirst : OpKind → Bool
  | .Match => true
  | .Mismatch => true
  | .InsertionInFirst => true
  | .InsertionInSecond => false

/-- Does the kind consume a symbol of the second sequence? -/
def consumesSecond : OpKind → Bool
  | .Match => true
  | .Mismatch => true
  | .InsertionInFirst => false
  | .InsertionInSecond => true

/-- Affine cost of one operation unit given the previous unit's kind:
match/mismatch scores are flat, a gap unit costs `gapExtensionScore` when
it continues a gap run of the same kind and `gapOpenScore` otherwise. -/
def stepCost (sm : ScoreModel) (prev : Option OpKind) (k : OpKind) : Int :=
  match k with
  | .Match => sm.matchScore
  | .Mismatch => sm.mismatchScore
  | .InsertionInFirst =>
      if prev = some .InsertionInFirst then sm.gapExtensionScore else sm.gapOpenScore
  | .InsertionInSecond =>
      if prev = some .InsertionInSecond then sm.gapExtensionScore else sm.gapOpenScore

/-- Re-score a left-to-right unit sequence under the affine model. -/
def rescoreUnits (sm : ScoreModel) : Option OpKind → List OpKind → Int
  | _, [] => 0
  | prev, k :: r => stepCost sm prev k + rescoreUnits sm (some k) r

/-- The spec's per-run re-scoring formula: `len * matchScore` for a Match
run, `len * mismatchScore` for a Mismatch run,
`gapOpenScore + (len-1) * gapExtensionScore` for a gap run. -/
def runScore (sm : ScoreModel) (k : OpKind) (len : Nat) : Int :=
  match k with
  | .Match => (len : Int) * sm.matchScore
  | .Mismatch => (len : Int) * sm.mismatchScore
  | _ => sm.gapOpenScore + ((len : Int) - 1) * sm.gapExtensionScore

/-- Independent re-scoring of a run-length-encoded operation sequence,
each run scored by the spec's formula. -/
def rescoreOperations (sm : ScoreModel) (ops : List (OpKind × Nat)) : Int :=
  (ops.map (fun p => runScore sm p.1 p.2)).sum

theorem rescoreOperations_cons (sm : ScoreModel) (k : OpKind) (n : Nat)
    (r : List (OpKind × Nat)) :
    rescoreOperations sm ((k, n) :: r) = runScore sm k n + rescoreOperations sm r := by
  simp [rescoreOperations]

/-- Per-run cost aware of the kind of the preceding unit (a gap run
continuing an identical-kind gap costs pure extensions). -/
def runScoreP (sm : ScoreModel) (prev : Option OpKind) (k : OpKind) (len : Nat) : Int :=
  match k with
  | .Match => (len : Int) * sm.matchScore
  | .Mismatch => (len : Int) * sm.mismatchScore
  | _ =>
      if prev = some k then (len : Int) * sm.gapExtensionScore
      else sm.gapOpenScore + ((len : Int) - 1) * sm.gapExtensionScore

/-- Re-score a run list threading the previous unit's kind. -/
def rescoreRuns (sm : ScoreModel) : Option OpKind → List (OpKind × Nat) → Int
  | _, [] => 0
  | prev, (k, n) :: r => runScoreP sm prev k n + rescoreRuns sm (some k) r

theorem runScoreP_succ (sm : ScoreModel) (prev : Option OpKind) (k : OpKind) (n : Nat) :
    runScoreP sm prev k (n + 1) = stepCost sm prev k + runScoreP sm (some k) k n := by
  cases k
  case Match => simp only [runScoreP, stepCost]; push_cast; ring
  case Mismatch => simp only [runScoreP, stepCost]; push_cast; ring
  case InsertionInFirst =>
    by_cases hp : prev = some OpKind.InsertionInFirst <;>
      simp [runScoreP, stepCost, hp] <;> push_cast <;> ring
  case InsertionInSecond =>
    by_cases hp : prev = some OpKind.InsertionInSecond <;>
      simp [runScoreP, stepCost, hp] <;> push_cast <;> ring

theorem runScoreP_one (sm : ScoreModel) (prev : Option OpKind) (k : OpKind) :
    runScoreP sm prev k 1 = stepCost sm prev k := by
  cases k
  case Match => simp [runScoreP, stepCost]
  case Mismatch => simp [runScoreP, stepCost]
  case InsertionInFirst =>
    by_cases hp : prev = some OpKind.InsertionInFirst <;>
      simp [runScoreP, stepCost, hp] <;> push_cast <;> ring
  case InsertionInSecond =>
    by_cases hp : prev = some OpKind.InsertionInSecond <;>
      simp [runScoreP, stepCost, hp] <;> push_cast <;> ring

theorem rle_ne_nil (k : OpKind) (rest : List OpKind) : rle (k :: rest) ≠ [] := by
  simp only [rle]
  match rle rest with
  | [] => simp
  | (k', n) :: t =>
    by_cases h : k = k' <;> simp [h]

/-- Re-scoring the run-length encoding, threading the previous kind, agrees
with unit-level re-scoring. -/
theorem rescoreRuns_rle (sm : ScoreModel) :
    ∀ (us : List OpKind) (prev : Option OpKind),
      rescoreRuns sm prev (rle us) = rescoreUnits sm prev us := by
  intro us
  induction us with
  | nil => intro prev; rfl
  | cons k rest IH =>
    intro prev
    simp only [rle]
    match hr : rle rest with
    | [] =>
      have : rest = [] := by
        cases rest with
        | nil => rfl
        | cons a l => exact absurd hr (rle_ne_nil a l)
      subst this
      simp [rescoreRuns, rescoreUnits, runScoreP_one]
    | (k', n) :: t =>
      by_cases h : k = k'
      · subst h
        simp only [if_pos rfl]
        have := IH (some k)
        rw [hr] at this
        simp only [rescoreRuns, rescoreUnits] at this ⊢
        rw [runScoreP_succ]
        omega
      · simp only [if_neg h]
        have := IH (some k)
        rw [hr] at this
        simp only [rescoreRuns, rescoreUnits] at this ⊢
        rw [runScoreP_one]
        omega

/-- No two adjacent runs share a kind. -/
def noRepeat : List (OpKind × Nat) → Prop
  | [] => True
  | [_] => True
  | (k, _) :: (k', n) :: r => k ≠ k' ∧ noRepeat ((k', n) :: r)

theorem rle_noRepeat : ∀ us : List OpKind, noRepeat (rle us) := by
  intro us
  induction us with
  | nil => trivial
  | cons k rest IH =>
    simp only [rle]
    match hr : rle rest with
    | [] => trivial
    | (k', n) :: t =>
      rw [hr] at IH
      by_cases h : k = k'
      · subst h
        simp only [if_pos rfl]
        match t with
        | [] => trivial
        | (k2, n2) :: t2 => exact ⟨IH.1, IH.2⟩
      · simp only [if_neg h]
        exact ⟨h, IH⟩

/-- On a run list without adjacent repeats whose head does not continue
`prev`, threaded re-scoring collapses to the spec's independent per-run
formula. -/
theorem rescoreRuns_eq_rescoreOperations (sm : ScoreModel) :
    ∀ (ops : List (OpKind × Nat)) (prev : Option OpKind), noRepeat ops →
      (∀ k n r, ops = (k, n) :: r → prev ≠ some k) →
      rescoreRuns sm prev ops = rescoreOperations sm ops := by
  intro ops
  induction ops with
  | nil => intro prev _ _; rfl
  | cons p r IH =>
    intro prev hnr hhead
    obtain ⟨k, n⟩ := p
    have hprev : prev ≠ some k := hhead k n r rfl
    have hrun : runScoreP sm prev k n = runScore sm k n := by
      cases k <;> simp [runScoreP, runScore, hprev]
    rw [rescoreOperations_cons]
    simp only [rescoreRuns]
    rw [hrun]
    have hr : rescoreRuns sm (some k) r = rescoreOperations sm r := by
      apply IH
      · match r with
        | [] => trivial
        | (k2, n2) :: r2 => exact hnr.2
      · intro k2 n2 r2 hr2
        subst hr2
        have : k ≠ k2 := hnr.1
        simp [this]
    omega

/-- Independent per-run re-scoring of `rle us` equals unit re-scoring. -/
theorem rescoreOperations_rle (sm : ScoreModel) (us : List OpKind) :
    rescoreOperations sm (rle us) = rescoreUnits sm none us := by
  rw [← rescoreRuns_rle sm us none]
  exact (rescoreRuns_eq_rescoreOperations sm (rle us) none (rle_noRepeat us)
    (fun _ _ _ _ => by simp)).symm

/-! ## Run-length encoding preserves lengths -/

/-- Number of units satisfying `p`. -/
def countC (p : OpKind → Bool) : List OpKind → Nat
  | [] => 0
  | k :: r => (if p k then 1 else 0) + countC p r

/-- Total length of operations whose kind satisfies `p`. -/
def opsLen (p : OpKind → Bool) : List (OpKind × Nat) → Nat
  | [] => 0
  | (k, n) :: r => (if p k then n else 0) + opsLen p r

theorem opsLen_rle (p : OpKind → Bool) :
    ∀ us : List OpKind, opsLen p (rle us) = countC p us := by
  intro us
  induction us with
  | nil => rfl
  | cons k rest IH =>
    simp only [rle, countC]
    match hr : rle rest with
    | [] =>
      have : rest = [] := by
        cases rest with
        | nil => rfl
        | cons a l => exact absurd hr (rle_ne_nil a l)
      subst this
      simp [countC, opsLen]
    | (k', n) :: t =>
      rw [hr] at IH
      by_cases h : k = k'
      · subst h
        simp only [if_pos rfl, opsLen] at IH ⊢
        by_cases hp : p k <;> simp [hp] at IH ⊢ <;> omega
      · simp only [if_neg h, opsLen] at IH ⊢
        omega

theorem rle_len_pos : ∀ (us : List OpKind) (k : OpKind) (n : Nat),
    (k, n) ∈ rle us → 1 ≤ n := by
  intro us
  induction us with
  | nil => intro k n h; simp [rle] at h
  | cons a rest IH =>
    intro k n h
    simp only [rle] at h
    match hr : rle rest with
    | [] =>
      rw [hr] at h
      simp at h
      omega
    | (k', m) :: t =>
      rw [hr] at h
      by_cases he : a = k'
      · subst he
        simp only [if_pos rfl] at h
        rcases List.mem_cons.mp h with h1 | h2
        · cases h1; omega
        · exact IH k n (hr ▸ List.mem_cons_of_mem _ h2)
      · simp only [if_neg he] at h
        rcases List.mem_cons.mp h with h1 | h2
        · cases h1; omega
        · exact IH k n (hr ▸ h2)

/-! ## Properties of the predecessor selection -/

theorem ole_trans {x y z : Option Int} (h1 : ole x y) (h2 : ole y z) : ole x z := by
  cases x <;> cases y <;> cases z <;> simp_all [ole] <;> omega

theorem ole_of_not_ole {x y : Option Int} (h : ¬ ole x y) : ole y x := by
  cases x <;> cases y <;> simp_all [ole] <;> omega

theorem omax_eq_right_of_ole {x y : Option Int} (h : ole x y) : omax x y = y := by
  cases x <;> cases y <;> simp_all [ole, omax] <;> omega

/-- The value the selected state holds among the three candidates. -/
def sel3 (d f g : Option Int) : GState → Option Int
  | .D => d
  | .F => f
  | .G => g

/-- `pick3` selects a state achieving the three-way maximum. -/
theorem sel3_pick3 (d f g : Option Int) :
    sel3 d f g (pick3 d f g) = omax d (omax f g) := by
  unfold pick3
  split_ifs with h1 h2
  · simp only [sel3]
    rw [omax_eq_left_of_ole (omax_le h1.1 h1.2)]
  · simp only [sel3]
    have hdf : ole d f := by
      rcases not_and_or.mp h1 with hfd | hgd
      · exact ole_of_not_ole hfd
      · exact ole_trans (ole_of_not_ole hgd) h2
    rw [omax_eq_left_of_ole h2, omax_eq_right_of_ole hdf]
  · simp only [sel3]
    have hfg : ole f g := ole_of_not_ole h2
    have hdg : ole d g := by
      rcases not_and_or.mp h1 with hfd | hgd
      · exact ole_trans (ole_of_not_ole hfd) hfg
      · exact ole_of_not_ole hgd
    rw [omax_eq_right_of_ole hfg, omax_eq_right_of_ole hdg]

theorem val_pick3 (P : AlignParams) (i j : Nat) :
    val P (pick3 (val P .D i j) (val P .F i j) (val P .G i j)) i j
      = omax (val P .D i j) (omax (val P .F i j) (val P .G i j)) := by
  have h := sel3_pick3 (val P .D i j) (val P .F i j) (val P .G i j)
  cases hp : pick3 (val P .D i j) (val P .F i j) (val P .G i j) <;>
    rw [hp] at h <;> simpa [sel3] using h

theorem pickF_spec (P : AlignParams) (i j : Nat) (v : Int)
    (h : val P .F (i+1) j = some v) :
    (pickF P i j = .D ∧ oadd (val P .D i j) P.sm.gapOpenScore = some v) ∨
    (pickF P i j = .F ∧ oadd (val P .F i j) P.sm.gapExtensionScore = some v) := by
  rw [val_F_succ] at h
  by_cases hb : inB P (i+1) j
  · rw [if_pos hb] at h
    unfold pickF
    by_cases hc : ole (oadd (val P .F i j) P.sm.gapExtensionScore)
        (oadd (val P .D i j) P.sm.gapOpenScore)
    · left
      refine ⟨if_pos hc, ?_⟩
      rw [← omax_eq_left_of_ole hc]
      exact h
    · right
      refine ⟨if_neg hc, ?_⟩
      rw [← omax_eq_right_of_not_ole hc]
      exact h
  · rw [if_neg hb] at h
    exact absurd h (by simp)

theorem pickG_spec (P : AlignParams) (i j : Nat) (v : Int)
    (h : val P .G i (j+1) = some v) :
    (pickG P i j = .D ∧ oadd (val P .D i j) P.sm.gapOpenScore = some v) ∨
    (pickG P i j = .G ∧ oadd (val P .G i j) P.sm.gapExtensionScore = some v) := by
  rw [val_G_succ] at h
  by_cases hb : inB P i (j+1)
  · rw [if_pos hb] at h
    unfold pickG
    by_cases hc : ole (oadd (val P .G i j) P.sm.gapExtensionScore)
        (oadd (val P .D i j) P.sm.gapOpenScore)
    · left
      refine ⟨if_pos hc, ?_⟩
      rw [← omax_eq_left_of_ole hc]
      exact h
    · right
      refine ⟨if_neg hc, ?_⟩
      rw [← omax_eq_right_of_not_ole hc]
      exact h
  · rw [if_neg hb] at h
    exact absurd h (by simp)

/-! ## Traceback step equations -/

theorem tbF_00 (P : AlignParams) (f : Nat) (st : GState) (acc : List OpKind) :
    tbF P f st 0 0 acc = acc := by
  cases f <;> cases st <;> rfl

theorem tbF_D_succ (P : AlignParams) (f i j : Nat) (acc : List OpKind) :
    tbF P (f+1) .D (i+1) (j+1) acc =
      tbF P f (pick3 (val P .D i j) (val P .F i j) (val P .G i j)) i j
        (diagKind P i j :: acc) := rfl

theorem tbF_D_i0 (P : AlignParams) (f i : Nat) (acc : List OpKind) :
    tbF P (f+1) .D (i+1) 0 acc = tbF P f .D i 0 (.InsertionInFirst :: acc) := rfl

theorem tbF_D_0j (P : AlignParams) (f j : Nat) (acc : List OpKind) :
    tbF P (f+1) .D 0 (j+1) acc = tbF P f .D 0 j (.InsertionInSecond :: acc) := rfl

theorem tbF_F_succ (P : AlignParams) (f i j : Nat) (acc : List OpKind) :
    tbF P (f+1) .F (i+1) j acc = tbF P f (pickF P i j) i j (.InsertionInFirst :: acc) := rfl

theorem tbF_F_0j (P : AlignParams) (f j : Nat) (acc : List OpKind) :
    tbF P (f+1) .F 0 (j+1) acc = tbF P f .D 0 j (.InsertionInSecond :: acc) := rfl

theorem tbF_G_succ (P : AlignParams) (f i j : Nat) (acc : List OpKind) :
    tbF P (f+1) .G i (j+1) acc = tbF P f (pickG P i j) i j (.InsertionInSecond :: acc) := by
  cases i <;> rfl

theorem tbF_G_i0 (P : AlignParams) (f i : Nat) (acc : List OpKind) :
    tbF P (f+1) .G (i+1) 0 acc = tbF P f .D i 0 (.InsertionInFirst :: acc) := rfl

theorem countC_cons (p : OpKind → Bool) (k : OpKind) (l : List OpKind) :
    countC p (k :: l) = (if p k then 1 else 0) + countC p l := rfl

theorem consumesFirst_diagKind (P : AlignParams) (i j : Nat) :
    consumesFirst (diagKind P i j) = true := by
  unfold diagKind
  split_ifs <;> rfl

theorem consumesSecond_diagKind (P : AlignParams) (i j : Nat) :
    consumesSecond (diagKind P i j) = true := by
  unfold diagKind
  split_ifs <;> rfl

/-- The traceback walk from cell `(i, j)` consumes exactly `i` symbols of
the first sequence and exactly `j` symbols of the second, whatever the
starting state. -/
theorem tbF_count (P : AlignParams) :
    ∀ (f : Nat) (st : GState) (i j : Nat) (acc : List OpKind), i + j ≤ f →
      countC consumesFirst (tbF P f st i j acc) = i + countC consumesFirst acc ∧
      countC consumesSecond (tbF P f st i j acc) = j + countC consumesSecond acc := by
  intro f
  induction f with
  | zero =>
    intro st i j acc h
    have hi : i = 0 := by omega
    have hj : j = 0 := by omega
    subst hi; subst hj
    rw [tbF_00]
    omega
  | succ f IH =>
    intro st i j acc h
    match st, i, j with
    | st, 0, 0 =>
      rw [tbF_00]
      omega
    | .D, i+1, j+1 =>
      rw [tbF_D_succ]
      obtain ⟨h1, h2⟩ := IH _ i j (diagKind P i j :: acc) (by omega)
      rw [h1, h2, countC_cons, countC_cons, consumesFirst_diagKind,
        consumesSecond_diagKind]
      simp
      omega
    | .D, i+1, 0 =>
      rw [tbF_D_i0]
      obtain ⟨h1, h2⟩ := IH .D i 0 (.InsertionInFirst :: acc) (by omega)
      rw [h1, h2, countC_cons, countC_cons]
      simp [consumesFirst, consumesSecond]
      omega
    | .D, 0, j+1 =>
      rw [tbF_D_0j]
      obtain ⟨h1, h2⟩ := IH .D 0 j (.InsertionInSecond :: acc) (by omega)
      rw [h1, h2, countC_cons, countC_cons]
      simp [consumesFirst, consumesSecond]
      omega
    | .F, i+1, j =>
      rw [tbF_F_succ]
      obtain ⟨h1, h2⟩ := IH _ i j (.InsertionInFirst :: acc) (by omega)
      rw [h1, h2, countC_cons, countC_cons]
      simp [consumesFirst, consumesSecond]
      omega
    | .F, 0, j+1 =>
      rw [tbF_F_0j]
      obtain ⟨h1, h2⟩ := IH .D 0 j (.InsertionInSecond :: acc) (by omega)
      rw [h1, h2, countC_cons, countC_cons]
      simp [consumesFirst, consumesSecond]
      omega
    | .G, i, j+1 =>
      rw [tbF_G_succ]
      obtain ⟨h1, h2⟩ := IH _ i j (.InsertionInSecond :: acc) (by omega)
      rw [h1, h2, countC_cons, countC_cons]
      simp [consumesFirst, consumesSecond]
      omega
    | .G, i+1, 0 =>
      rw [tbF_G_i0]
      obtain ⟨h1, h2⟩ := IH .D i 0 (.InsertionInFirst :: acc) (by omega)
      rw [h1, h2, countC_cons, countC_cons]
      simp [consumesFirst, consumesSecond]
      omega

/-! ## The traceback reproduces the table score -/

/-- Kind of the unit a traceback emits when leaving a cell in this state —
the information the affine re-scorer needs about the preceding unit. -/
def prevK : GState → Option OpKind
  | .D => none
  | .F => some .InsertionInFirst
  | .G => some .InsertionInSecond

theorem rescoreUnits_prev_nongap (sm : ScoreModel) (p : Option OpKind)
    (hp1 : p ≠ some .InsertionInFirst) (hp2 : p ≠ some .InsertionInSecond)
    (l : List OpKind) : rescoreUnits sm p l = rescoreUnits sm none l := by
  cases l with
  | nil => rfl
  | cons k r =>
    simp only [rescoreUnits]
    have : stepCost sm p k = stepCost sm none k := by
      cases k <;> simp [stepCost, hp1, hp2]
    rw [this]

theorem stepCost_diagKind (sm : ScoreModel) (P : AlignParams) (p : Option OpKind)
    (i j : Nat) :
    stepCost sm p (diagKind P i j) = substitutionScore sm (ch1 P i) (ch2 P j) := by
  unfold diagKind substitutionScore
  split_ifs <;> rfl

theorem diagKind_ne_gap (P : AlignParams) (i j : Nat) :
    some (diagKind P i j) ≠ some OpKind.InsertionInFirst ∧
    some (diagKind P i j) ≠ some OpKind.InsertionInSecond := by
  unfold diagKind
  split_ifs <;> simp

theorem tbF_rescore_base (P : AlignParams) (f : Nat) (st : GState)
    (acc : List OpKind) (v : Int) (hv : val P st 0 0 = some v) :
    rescoreUnits P.sm none (tbF P f st 0 0 acc) =
      v + rescoreUnits P.sm (prevK st) acc := by
  rw [tbF_00]
  cases st
  case D =>
    rw [val_D00] at hv
    by_cases hb : inB P 0 0
    · rw [if_pos hb] at hv
      injection hv with h0
      rw [← h0]
      simp [prevK]
    · rw [if_neg hb] at hv
      simp at hv
  case F =>
    rw [val_F_0j P 0] at hv
    simp at hv
  case G =>
    rw [val_G_i0 P 0] at hv
    simp at hv

/-- Walking back from any cell holding a finite score and re-scoring the
produced unit sequence recovers exactly that score (plus the cost of the
already-accumulated suffix, whose first unit sees this cell's kind). -/
theorem tbF_rescore (P : AlignParams) :
    ∀ (f : Nat) (st : GState) (i j : Nat) (acc : List OpKind) (v : Int),
      i + j ≤ f → val P st i j = some v →
      rescoreUnits P.sm none (tbF P f st i j acc) =
        v + rescoreUnits P.sm (prevK st) acc := by
  intro f
  induction f with
  | zero =>
    intro st i j acc v h hv
    have hi : i = 0 := by omega
    have hj : j = 0 := by omega
    subst hi; subst hj
    exact tbF_rescore_base P 0 st acc v hv
  | succ f IH =>
    intro st i j acc v h hv
    match st, i, j with
    | st, 0, 0 => exact tbF_rescore_base P (f+1) st acc v hv
    | .D, i+1, j+1 =>
      rw [tbF_D_succ]
      rw [val_D_succ] at hv
      by_cases hb : inB P (i+1) (j+1)
      · rw [if_pos hb] at hv
        obtain ⟨w, hw, hvw⟩ : ∃ w,
            omax (val P .D i j) (omax (val P .F i j) (val P .G i j)) = some w ∧
              v = w + substitutionScore P.sm (ch1 P i) (ch2 P j) := by
          cases hm : omax (val P .D i j) (omax (val P .F i j) (val P .G i j)) with
          | none => rw [hm, oadd_none] at hv; simp at hv
          | some w =>
            rw [hm, oadd_some] at hv
            injection hv with hv'
            exact ⟨w, rfl, hv'.symm⟩
        have hpick : val P (pick3 (val P .D i j) (val P .F i j) (val P .G i j)) i j
            = some w := by rw [val_pick3]; exact hw
        rw [IH _ i j (diagKind P i j :: acc) w (by omega) hpick]
        simp only [rescoreUnits]
        rw [stepCost_diagKind]
        rw [rescoreUnits_prev_nongap P.sm (some (diagKind P i j))
          (diagKind_ne_gap P i j).1 (diagKind_ne_gap P i j).2 acc]
        simp only [prevK]
        omega
      · rw [if_neg hb] at hv
        simp at hv
    | .D, i+1, 0 =>
      rw [val_D_i0] at hv
      simp at hv
    | .D, 0, j+1 =>
      rw [val_D_0j] at hv
      simp at hv
    | .F, i+1, j =>
      rw [tbF_F_succ]
      rcases pickF_spec P i j v hv with ⟨hp, he⟩ | ⟨hp, he⟩
      · have hd : val P .D i j = some (v - P.sm.gapOpenScore) := by
          cases hd0 : val P .D i j with
          | none => rw [hd0, oadd_none] at he; simp at he
          | some a =>
            rw [hd0, oadd_some] at he
            injection he with he'
            simp only [Option.some.injEq]
            omega
        rw [hp]
        rw [IH .D i j (.InsertionInFirst :: acc) _ (by omega) hd]
        have hstep : stepCost P.sm none OpKind.InsertionInFirst = P.sm.gapOpenScore := rfl
        simp only [rescoreUnits, prevK, hstep]
        omega
      · have hf2 : val P .F i j = some (v - P.sm.gapExtensionScore) := by
          cases hf0 : val P .F i j with
          | none => rw [hf0, oadd_none] at he; simp at he
          | some a =>
            rw [hf0, oadd_some] at he
            injection he with he'
            simp only [Option.some.injEq]
            omega
        rw [hp]
        rw [IH .F i j (.InsertionInFirst :: acc) _ (by omega) hf2]
        have hstep : stepCost P.sm (some OpKind.InsertionInFirst) OpKind.InsertionInFirst
            = P.sm.gapExtensionScore := rfl
        simp only [rescoreUnits, prevK, hstep]
        omega
    | .F, 0, j+1 =>
      rw [val_F_0j] at hv
      simp at hv
    | .G, i, j+1 =>
      rw [tbF_G_succ]
      rcases pickG_spec P i j v hv with ⟨hp, he⟩ | ⟨hp, he⟩
      · have hd : val P .D i j = some (v - P.sm.gapOpenScore) := by
          cases hd0 : val P .D i j with
          | none => rw [hd0, oadd_none] at he; simp at he
          | some a =>
            rw [hd0, oadd_some] at he
            injection he with he'
            simp only [Option.some.injEq]
            omega
        rw [hp]
        rw [IH .D i j (.InsertionInSecond :: acc) _ (by omega) hd]
        have hstep : stepCost P.sm none OpKind.InsertionInSecond = P.sm.gapOpenScore := rfl
        simp only [rescoreUnits, prevK, hstep]
        omega
      · have hg2 : val P .G i j = some (v - P.sm.gapExtensionScore) := by
          cases hg0 : val P .G i j with
          | none => rw [hg0, oadd_none] at he; simp at he
          | some a =>
            rw [hg0, oadd_some] at he
            injection he with he'
            simp only [Option.some.injEq]
            omega
        rw [hp]
        rw [IH .G i j (.InsertionInSecond :: acc) _ (by omega) hg2]
        have hstep : stepCost P.sm (some OpKind.InsertionInSecond) OpKind.InsertionInSecond
            = P.sm.gapExtensionScore := rfl
        simp only [rescoreUnits, prevK, hstep]
        omega
    | .G, i+1, 0 =>
      rw [val_G_i0] at hv
      simp at hv

/-! ## The terminal corner always holds a finite score -/

/-- The band (when present) contains diagonal 0 and the terminal diagonal
`|s2| - |s1|`; every band built by the entry point satisfies this. -/
def goodBand (P : AlignParams) : Prop :=
  match P.band with
  | none => True
  | some (lo, hi) =>
      lo ≤ 0 ∧ 0 ≤ hi ∧
      lo ≤ (P.s2.length : Int) - (P.s1.length : Int) ∧
      (P.s2.length : Int) - (P.s1.length : Int) ≤ hi

theorem inB_of_between (P : AlignParams) (hg : goodBand P) (i j : Nat)
    (hlo : min 0 ((P.s2.length : Int) - (P.s1.length : Int)) ≤ (j : Int) - (i : Int))
    (hhi : (j : Int) - (i : Int) ≤ max 0 ((P.s2.length : Int) - (P.s1.length : Int))) :
    inB P i j := by
  unfold goodBand at hg
  unfold inB
  match hb : P.band with
  | none => trivial
  | some (lo, hi) =>
    rw [hb] at hg
    exact ⟨by omega, by omega⟩

theorem inB_diag (P : AlignParams) (hg : goodBand P) (t : Nat) : inB P t t := by
  apply inB_of_between P hg <;> omega

theorem val_D_diag_isSome (P : AlignParams) (hg : goodBand P) :
    ∀ t, ∃ v, val P .D t t = some v := by
  intro t
  induction t with
  | zero => exact ⟨0, by rw [val_D00, if_pos (inB_diag P hg 0)]⟩
  | succ t IH =>
    obtain ⟨v, hv⟩ := IH
    rw [val_D_succ, if_pos (inB_diag P hg (t+1)), hv]
    obtain ⟨c, hc⟩ := omax_isSome_left v (omax (val P .F t t) (val P .G t t))
    rw [hc, oadd_some]
    exact ⟨_, rfl⟩

theorem corner_isSome (P : AlignParams) (hg : goodBand P) :
    ∃ v, omax (val P .D P.s1.length P.s2.length)
      (omax (val P .F P.s1.length P.s2.length)
        (val P .G P.s1.length P.s2.length)) = some v := by
  by_cases hnm : P.s1.length ≤ P.s2.length
  · have key : ∀ d, P.s1.length + d ≤ P.s2.length →
        (∃ v, val P .D P.s1.length (P.s1.length + d) = some v) ∨
        (∃ v, val P .G P.s1.length (P.s1.length + d) = some v) := by
      intro d
      induction d with
      | zero =>
        intro _
        exact Or.inl (by simpa using val_D_diag_isSome P hg P.s1.length)
      | succ d IH =>
        intro hd
        have hin : inB P P.s1.length (P.s1.length + d + 1) := by
          apply inB_of_between P hg <;> push_cast <;> omega
        right
        have hstep : val P .G P.s1.length (P.s1.length + (d + 1)) =
            if inB P P.s1.length (P.s1.length + d + 1) then
              omax (oadd (val P .D P.s1.length (P.s1.length + d)) P.sm.gapOpenScore)
                (oadd (val P .G P.s1.length (P.s1.length + d)) P.sm.gapExtensionScore)
            else none := by
          have := val_G_succ P P.s1.length (P.s1.length + d)
          simpa [Nat.add_assoc] using this
        rw [hstep, if_pos hin]
        rcases IH (by omega) with ⟨v, hv⟩ | ⟨v, hv⟩
        · rw [hv, oadd_some]
          exact omax_isSome_left _ _
        · rw [hv, oadd_some]
          exact omax_isSome_right _ _
    obtain ⟨d, hd⟩ : ∃ d, P.s2.length = P.s1.length + d := ⟨P.s2.length - P.s1.length, by omega⟩
    rcases hd ▸ key d (by omega) with ⟨v, hv⟩ | ⟨v, hv⟩
    · rw [hv]
      exact omax_isSome_left _ _
    · rw [hv]
      obtain ⟨c, hc⟩ := omax_isSome_right (val P .F P.s1.length P.s2.length) v
      rw [hc]
      exact omax_isSome_right _ _
  · have key : ∀ d, P.s2.length + d ≤ P.s1.length →
        (∃ v, val P .D (P.s2.length + d) P.s2.length = some v) ∨
        (∃ v, val P .F (P.s2.length + d) P.s2.length = some v) := by
      intro d
      induction d with
      | zero =>
        intro _
        exact Or.inl (by simpa using val_D_diag_isSome P hg P.s2.length)
      | succ d IH =>
        intro hd
        have hin : inB P (P.s2.length + d + 1) P.s2.length := by
          apply inB_of_between P hg <;> push_cast <;> omega
        right
        have hstep : val P .F (P.s2.length + (d + 1)) P.s2.length =
            if inB P (P.s2.length + d + 1) P.s2.length then
              omax (oadd (val P .D (P.s2.length + d) P.s2.length) P.sm.gapOpenScore)
                (oadd (val P .F (P.s2.length + d) P.s2.length) P.sm.gapExtensionScore)
            else none := by
          have := val_F_succ P (P.s2.length + d) P.s2.length
          simpa [Nat.add_assoc] using this
        rw [hstep, if_pos hin]
        rcases IH (by omega) with ⟨v, hv⟩ | ⟨v, hv⟩
        · rw [hv, oadd_some]
          exact omax_isSome_left _ _
        · rw [hv, oadd_some]
          exact omax_isSome_right _ _
    obtain ⟨d, hd⟩ : ∃ d, P.s1.length = P.s2.length + d := ⟨P.s1.length - P.s2.length, by omega⟩
    rcases hd ▸ key d (by omega) with ⟨v, hv⟩ | ⟨v, hv⟩
    · rw [hv]
      exact omax_isSome_left _ _
    · rw [hv]
      obtain ⟨c, hc⟩ := omax_isSome_left v (val P .G P.s1.length P.s2.length)
      rw [hc]
      exact omax_isSome_right _ _

/-! ## Banding only removes search space -/

theorem valF_band_mono (s1 s2 : List Char) (sm : ScoreModel) (b : Option (Int × Int)) :
    ∀ (f : Nat) (st : GState) (i j : Nat),
      ole (valF ⟨s1, s2, sm, b⟩ f st i j) (valF ⟨s1, s2, sm, none⟩ f st i j) := by
  have hfree : ∀ i j : Nat, inB ⟨s1, s2, sm, none⟩ i j := fun _ _ => trivial
  intro f
  induction f with
  | zero =>
    intro st i j
    match st, i, j with
    | .D, 0, 0 =>
      rw [valF_D00, valF_D00, if_pos (hfree 0 0)]
      split_ifs with h
      · exact ole_refl _
      · exact ole_none_left _
    | .D, i+1, j+1 => exact ole_none_left _
    | .D, i+1, 0 => exact ole_none_left _
    | .D, 0, j+1 => exact ole_none_left _
    | .F, i, j => rw [show valF ⟨s1, s2, sm, b⟩ 0 .F i j = none by cases i <;> cases j <;> rfl]; exact ole_none_left _
    | .G, i, j => rw [show valF ⟨s1, s2, sm, b⟩ 0 .G i j = none by cases i <;> cases j <;> rfl]; exact ole_none_left _
  | succ f IH =>
    intro st i j
    match st, i, j with
    | .D, 0, 0 =>
      rw [valF_D00, valF_D00, if_pos (hfree 0 0)]
      split_ifs with h
      · exact ole_refl _
      · exact ole_none_left _
    | .D, i+1, 0 => rw [valF_D_i0]; exact ole_none_left _
    | .D, 0, j+1 => rw [valF_D_0j]; exact ole_none_left _
    | .F, 0, j => rw [valF_F_0j]; exact ole_none_left _
    | .G, i, 0 => rw [valF_G_i0]; exact ole_none_left _
    | .D, i+1, j+1 =>
      rw [valF_D_succ, valF_D_succ, if_pos (hfree (i+1) (j+1))]
      by_cases hb2 : inB ⟨s1, s2, sm, b⟩ (i+1) (j+1)
      · rw [if_pos hb2]
        exact ole_oadd_oadd _ (omax_ole_omax (IH .D i j)
          (omax_ole_omax (IH .F i j) (IH .G i j)))
      · rw [if_neg hb2]
        exact ole_none_left _
    | .F, i+1, j =>
      rw [valF_F_succ, valF_F_succ, if_pos (hfree (i+1) j)]
      by_cases hb2 : inB ⟨s1, s2, sm, b⟩ (i+1) j
      · rw [if_pos hb2]
        exact omax_ole_omax (ole_oadd_oadd _ (IH .D i j)) (ole_oadd_oadd _ (IH .F i j))
      · rw [if_neg hb2]
        exact ole_none_left _
    | .G, i, j+1 =>
      rw [valF_G_succ, valF_G_succ, if_pos (hfree i (j+1))]
      by_cases hb2 : inB ⟨s1, s2, sm, b⟩ i (j+1)
      · rw [if_pos hb2]
        exact omax_ole_omax (ole_oadd_oadd _ (IH .D i j)) (ole_oadd_oadd _ (IH .G i j))
      · rw [if_neg hb2]
        exact ole_none_left _

theorem val_band_mono (s1 s2 : List Char) (sm : ScoreModel) (b : Option (Int × Int))
    (st : GState) (i j : Nat) :
    ole (val ⟨s1, s2, sm, b⟩ st i j) (val ⟨s1, s2, sm, none⟩ st i j) :=
  valF_band_mono s1 s2 sm b (i + j) st i j

/-! ## The claim-side Gotoh recurrence (unbanded)

`gotoh` restates, word for word, the recurrence of the specification:
interior cells by the three-state affine-gap equations, the base row and
column set directly to the accumulating leading-gap cost, everything else
`-infinity`.  It is deliberately a second definition, to be compared with
the engine's `val`. -/

def gotoh (s1 s2 : List Char) (sm : ScoreModel) : GState → Nat → Nat → Option Int
  | .D, 0, 0 => some 0
  | .D, i+1, j+1 =>
      oadd (omax (gotoh s1 s2 sm .D i j)
          (omax (gotoh s1 s2 sm .F i j) (gotoh s1 s2 sm .G i j)))
        (substitutionScore sm (s1.getD i '?') (s2.getD j '?'))
  | .D, _+1, 0 => none
  | .D, 0, _+1 => none
  | .F, i+1, 0 => some (gapCost sm (i+1))
  | .F, i+1, j+1 =>
      omax (oadd (gotoh s1 s2 sm .D i (j+1)) sm.gapOpenScore)
        (oadd (gotoh s1 s2 sm .F i (j+1)) sm.gapExtensionScore)
  | .F, 0, _ => none
  | .G, 0, j+1 => some (gapCost sm (j+1))
  | .G, i+1, j+1 =>
      omax (oadd (gotoh s1 s2 sm .D (i+1) j) sm.gapOpenScore)
        (oadd (gotoh s1 s2 sm .G (i+1) j) sm.gapExtensionScore)
  | .G, _, 0 => none
termination_by st i j => i + j

theorem gotoh_D00 (s1 s2 : List Char) (sm : ScoreModel) :
    gotoh s1 s2 sm .D 0 0 = some 0 := by
  simp [gotoh]

theorem gotoh_D_i0 (s1 s2 : List Char) (sm : ScoreModel) (i : Nat) :
    gotoh s1 s2 sm .D (i+1) 0 = none := by
  simp [gotoh]

theorem gotoh_D_0j (s1 s2 : List Char) (sm : ScoreModel) (j : Nat) :
    gotoh s1 s2 sm .D 0 (j+1) = none := by
  simp [gotoh]

theorem gotoh_F_0 (s1 s2 : List Char) (sm : ScoreModel) (j : Nat) :
    gotoh s1 s2 sm .F 0 j = none := by
  cases j <;> simp [gotoh]

theorem gotoh_G_0 (s1 s2 : List Char) (sm : ScoreModel) (i : Nat) :
    gotoh s1 s2 sm .G i 0 = none := by
  cases i <;> simp [gotoh]

theorem gotoh_F_i0 (s1 s2 : List Char) (sm : ScoreModel) (i : Nat) :
    gotoh s1 s2 sm .F (i+1) 0 = some (gapCost sm (i+1)) := by
  simp [gotoh]

theorem gotoh_G_0j (s1 s2 : List Char) (sm : ScoreModel) (j : Nat) :
    gotoh s1 s2 sm .G 0 (j+1) = some (gapCost sm (j+1)) := by
  simp [gotoh]

theorem gotoh_D_succ (s1 s2 : List Char) (sm : ScoreModel) (i j : Nat) :
    gotoh s1 s2 sm .D (i+1) (j+1) =
      oadd (omax (gotoh s1 s2 sm .D i j)
          (omax (gotoh s1 s2 sm .F i j) (gotoh s1 s2 sm .G i j)))
        (substitutionScore sm (s1.getD i '?') (s2.getD j '?')) := by
  simp [gotoh]

theorem gotoh_F_succ (s1 s2 : List Char) (sm : ScoreModel) (i j : Nat) :
    gotoh s1 s2 sm .F (i+1) (j+1) =
      omax (oadd (gotoh s1 s2 sm .D i (j+1)) sm.gapOpenScore)
        (oadd (gotoh s1 s2 sm .F i (j+1)) sm.gapExtensionScore) := by
  simp [gotoh]

theorem gotoh_G_succ (s1 s2 : List Char) (sm : ScoreModel) (i j : Nat) :
    gotoh s1 s2 sm .G (i+1) (j+1) =
      omax (oadd (gotoh s1 s2 sm .D (i+1) j) sm.gapOpenScore)
        (oadd (gotoh s1 s2 sm .G (i+1) j) sm.gapExtensionScore) := by
  simp [gotoh]

/-- Refinement: the engine's fuel-indexed, band-capable tables agree with
the claim's recurrence when unbanded. -/
theorem val_eq_gotoh (s1 s2 : List Char) (sm : ScoreModel) :
    ∀ (N : Nat) (st : GState) (i j : Nat), i + j ≤ N →
      val ⟨s1, s2, sm, none⟩ st i j = gotoh s1 s2 sm st i j := by
  have hfree : ∀ i j : Nat, inB ⟨s1, s2, sm, none⟩ i j := fun _ _ => trivial
  intro N
  induction N using Nat.strong_induction_on with
  | _ N IH =>
    intro st i j h
    match st, i, j with
    | .D, 0, 0 => rw [val_D00, if_pos (hfree 0 0), gotoh_D00]
    | .D, i+1, 0 => rw [val_D_i0, gotoh_D_i0]
    | .D, 0, j+1 => rw [val_D_0j, gotoh_D_0j]
    | .F, 0, j => rw [val_F_0j, gotoh_F_0]
    | .G, i, 0 => rw [val_G_i0, gotoh_G_0]
    | .D, i+1, j+1 =>
      rw [val_D_succ, if_pos (hfree (i+1) (j+1)), gotoh_D_succ]
      rw [IH (i + j) (by omega) .D i j le_rfl, IH (i + j) (by omega) .F i j le_rfl,
        IH (i + j) (by omega) .G i j le_rfl]
      rfl
    | .F, i+1, j =>
      rw [val_F_succ, if_pos (hfree (i+1) j)]
      rw [IH (i + j) (by omega) .D i j le_rfl, IH (i + j) (by omega) .F i j le_rfl]
      match j with
      | j'+1 => rw [gotoh_F_succ]
      | 0 =>
        rw [gotoh_F_i0]
        match i with
        | 0 =>
          rw [gotoh_D00, gotoh_F_0]
          simp [omax, oadd, gapCost]
        | i'+1 =>
          rw [gotoh_D_i0, gotoh_F_i0]
          simp only [omax, oadd, oadd_none, oadd_some, gapCost, Option.some.injEq]
          push_cast
          ring
    | .G, i, j+1 =>
      rw [val_G_succ, if_pos (hfree i (j+1))]
      rw [IH (i + j) (by omega) .D i j le_rfl, IH (i + j) (by omega) .G i j le_rfl]
      match i with
      | i'+1 => rw [gotoh_G_succ]
      | 0 =>
        rw [gotoh_G_0j]
        match j with
        | 0 =>
          rw [gotoh_D00, gotoh_G_0]
          simp [omax, oadd, gapCost]
        | j'+1 =>
          rw [gotoh_D_0j, gotoh_G_0j]
          simp only [omax, oadd, oadd_none, oadd_some, gapCost, Option.some.injEq]
          push_cast
          ring

/-! ## Unfolding one successful invocation -/

theorem fga_ok_elim {s1 s2 : List Char} {a b c d : Int} {ub : Bool} {k : Int}
    {r : ScoredAlignment}
    (h : fullyGlobalAlignment s1 s2 a b c d ub k = .ok r) :
    ¬(ub = true ∧ k < 1) ∧
    r = ⟨(cornerBest (runParams s1 s2 ⟨a, b, c, d⟩ ub k)).getD 0,
      rle (tbF (runParams s1 s2 ⟨a, b, c, d⟩ ub k) (s1.length + s2.length)
        (cornerState (runParams s1 s2 ⟨a, b, c, d⟩ ub k)) s1.length s2.length [])⟩ := by
  by_cases hc : ub = true ∧ k < 1
  · simp only [fullyGlobalAlignment, if_pos hc] at h
    exact absurd h (by simp)
  · simp only [fullyGlobalAlignment, if_neg hc, Except.ok.injEq] at h
    exact ⟨hc, h.symm⟩

theorem goodBand_runParams (s1 s2 : List Char) (sm : ScoreModel) (ub : Bool)
    (k : Int) (h : ub = true → 1 ≤ k) :
    goodBand (runParams s1 s2 sm ub k) := by
  unfold runParams mkBand goodBand
  cases ub
  · simp
  · simp only [if_pos rfl]
    have := h rfl
    refine ⟨by omega, by omega, by omega, by omega⟩

theorem band_runParams_off (s1 s2 : List Char) (sm : ScoreModel) (k : Int) :
    (runParams s1 s2 sm false k).band = none := rfl

/-! ## Alignments against the empty first sequence -/

theorem inB_of_band_none (P : AlignParams) (hb : P.band = none) (i j : Nat) :
    inB P i j := by
  unfold inB
  rw [hb]
  trivial

theorem val_G_row0 (P : AlignParams) (hb : P.band = none) :
    ∀ j, val P .G 0 (j+1) = some (gapCost P.sm (j+1)) := by
  have hfree := inB_of_band_none P hb
  intro j
  induction j with
  | zero =>
    rw [val_G_succ, if_pos (hfree 0 1), val_D00, if_pos (hfree 0 0), val_G_i0]
    simp [omax, oadd, gapCost]
  | succ j IH =>
    rw [val_G_succ, if_pos (hfree 0 (j+2)), val_D_0j, IH]
    simp only [oadd_none, oadd_some, omax, Option.some.injEq, gapCost]
    push_cast
    ring

theorem tbF_G_row0 (P : AlignParams) (hb : P.band = none) :
    ∀ (j f : Nat) (acc : List OpKind), j ≤ f →
      tbF P f .G 0 j acc = List.replicate j OpKind.InsertionInSecond ++ acc := by
  have hfree := inB_of_band_none P hb
  intro j
  induction j with
  | zero =>
    intro f acc h
    rw [tbF_00]
    simp
  | succ j IH =>
    intro f acc h
    obtain ⟨f', rfl⟩ : ∃ f', f = f' + 1 := ⟨f - 1, by omega⟩
    rw [tbF_G_succ]
    cases j with
    | zero =>
      have hpick : pickG P 0 0 = .D := by
        unfold pickG
        rw [val_G_i0, val_D00, if_pos (hfree 0 0)]
        exact if_pos trivial
      rw [hpick, tbF_00]
      simp
    | succ j' =>
      have hpick : pickG P 0 (j'+1) = .G := by
        unfold pickG
        rw [val_D_0j, val_G_row0 P hb j']
        exact if_neg (fun hc => hc)
      rw [hpick, IH f' (.InsertionInSecond :: acc) (by omega)]
      simp [List.replicate_succ']

/-! ## Identity alignments under the unit score model -/

/-- The score model of the spec's identity-alignment property. -/
def identSM : ScoreModel := ⟨1, -1, -2, -1⟩

theorem substitutionScore_ident_le (a b : Char) : substitutionScore identSM a b ≤ 1 := by
  have h : substitutionScore identSM a b = if a = b then 1 else -1 := rfl
  rw [h]
  split_ifs <;> omega

/-- Upper bound on every cell of the identity run: at most one point per
diagonal step, at least one point lost per unavoidable gap unit. -/
def dBound (i j : Nat) : Int := 2 * min (i : Int) (j : Int) - max (i : Int) (j : Int)

theorem ole_some_some {a b : Int} (h : a ≤ b) : ole (some a) (some b) := h

theorem ident_bound (s : List Char) :
    ∀ (N : Nat) (st : GState) (i j : Nat), i + j ≤ N →
      ole (val ⟨s, s, identSM, none⟩ st i j) (some (dBound i j)) := by
  intro N
  induction N using Nat.strong_induction_on with
  | _ N IH =>
    intro st i j h
    have hfree : ∀ i j : Nat, inB ⟨s, s, identSM, none⟩ i j := fun _ _ => trivial
    match st, i, j with
    | .D, 0, 0 =>
      rw [val_D00, if_pos (hfree 0 0)]
      exact ole_some_some (by simp [dBound])
    | .D, i+1, 0 => rw [val_D_i0]; exact ole_none_left _
    | .D, 0, j+1 => rw [val_D_0j]; exact ole_none_left _
    | .F, 0, j => rw [val_F_0j]; exact ole_none_left _
    | .G, i, 0 => rw [val_G_i0]; exact ole_none_left _
    | .D, i+1, j+1 =>
      rw [val_D_succ, if_pos (hfree (i+1) (j+1))]
      have hD := IH (i + j) (by omega) .D i j le_rfl
      have hF := IH (i + j) (by omega) .F i j le_rfl
      have hG := IH (i + j) (by omega) .G i j le_rfl
      have h1 := oadd_le_some (omax_le hD (omax_le hF hG))
        (substitutionScore_ident_le (ch1 ⟨s, s, identSM, none⟩ i)
          (ch2 ⟨s, s, identSM, none⟩ j))
      refine ole_trans h1 (ole_some_some ?_)
      simp only [dBound]
      push_cast
      omega
    | .F, i+1, j =>
      rw [val_F_succ, if_pos (hfree (i+1) j)]
      have hD := IH (i + j) (by omega) .D i j le_rfl
      have hF := IH (i + j) (by omega) .F i j le_rfl
      have hgo : identSM.gapOpenScore ≤ -1 := by decide
      have hge : identSM.gapExtensionScore ≤ -1 := by decide
      have h1 := oadd_le_some hD hgo
      have h2 := oadd_le_some hF hge
      refine ole_trans (omax_le h1 h2) (ole_some_some ?_)
      simp only [dBound]
      push_cast
      omega
    | .G, i, j+1 =>
      rw [val_G_succ, if_pos (hfree i (j+1))]
      have hD := IH (i + j) (by omega) .D i j le_rfl
      have hG := IH (i + j) (by omega) .G i j le_rfl
      have hgo : identSM.gapOpenScore ≤ -1 := by decide
      have hge : identSM.gapExtensionScore ≤ -1 := by decide
      have h1 := oadd_le_some hD hgo
      have h2 := oadd_le_some hG hge
      refine ole_trans (omax_le h1 h2) (ole_some_some ?_)
      simp only [dBound]
      push_cast
      omega

theorem dBound_diag (t : Nat) : dBound t t = (t : Int) := by
  simp only [dBound, min_self, max_self]
  omega

theorem ident_diag (s : List Char) :
    ∀ t, val ⟨s, s, identSM, none⟩ .D t t = some (t : Int) := by
  have hfree : ∀ i j : Nat, inB ⟨s, s, identSM, none⟩ i j := fun _ _ => trivial
  intro t
  induction t with
  | zero =>
    rw [val_D00, if_pos (hfree 0 0)]
    norm_num
  | succ t IH =>
    rw [val_D_succ, if_pos (hfree (t+1) (t+1)), IH]
    have hF := ident_bound s (t + t) .F t t le_rfl
    have hG := ident_bound s (t + t) .G t t le_rfl
    rw [dBound_diag] at hF hG
    rw [omax_eq_left_of_ole (omax_le hF hG)]
    have hch : ch1 (⟨s, s, identSM, none⟩ : AlignParams) t
        = ch2 (⟨s, s, identSM, none⟩ : AlignParams) t := rfl
    have hsub : substitutionScore (⟨s, s, identSM, none⟩ : AlignParams).sm
        (ch1 ⟨s, s, identSM, none⟩ t) (ch2 ⟨s, s, identSM, none⟩ t) = 1 := by
      unfold substitutionScore
      rw [if_pos hch]
      rfl
    rw [hsub, oadd_some]
    exact congrArg some (by push_cast; ring)

theorem ident_tb (s : List Char) :
    ∀ (t f : Nat) (acc : List OpKind), 2 * t ≤ f →
      tbF ⟨s, s, identSM, none⟩ f .D t t acc =
        List.replicate t OpKind.Match ++ acc := by
  intro t
  induction t with
  | zero =>
    intro f acc h
    rw [tbF_00]
    simp
  | succ t IH =>
    intro f acc h
    obtain ⟨f', rfl⟩ : ∃ f', f = f' + 1 := ⟨f - 1, by omega⟩
    rw [tbF_D_succ]
    have hD := ident_diag s t
    have hF := ident_bound s (t + t) .F t t le_rfl
    have hG := ident_bound s (t + t) .G t t le_rfl
    rw [dBound_diag] at hF hG
    have hpick : pick3 (val ⟨s, s, identSM, none⟩ .D t t)
        (val ⟨s, s, identSM, none⟩ .F t t) (val ⟨s, s, identSM, none⟩ .G t t) = .D := by
      unfold pick3
      rw [hD]
      exact if_pos ⟨hF, hG⟩
    have hdk : diagKind ⟨s, s, identSM, none⟩ t t = .Match := by
      unfold diagKind
      rw [if_pos (show ch1 (⟨s, s, identSM, none⟩ : AlignParams) t
        = ch2 (⟨s, s, identSM, none⟩ : AlignParams) t from rfl)]
    rw [hpick, hdk, IH f' (.Match :: acc) (by omega)]
    simp [List.replicate_succ']

theorem rle_replicate (k : OpKind) :
    ∀ n : Nat, 1 ≤ n → rle (List.replicate n k) = [(k, n)] := by
  intro n
  induction n with
  | zero => intro h; exact absurd h (by omega)
  | succ n IH =>
    intro _
    cases n with
    | zero => rfl
    | succ n' =>
      have hr := IH (by omega)
      rw [List.replicate_succ, rle, hr]
      simp

/-! ## Claim theorems -/

/-- C1: every ScoredAlignment produced by `fullyGlobalAlignment` (any
inputs, any score model, banded or not) re-scores to exactly its stored
score when its ordered operation sequence is scored independently against
the same model — matchScore per Match unit, mismatchScore per Mismatch
unit, `gapOpenScore + (L-1)*gapExtensionScore` per gap run of length `L`. -/
theorem C1_self_consistency (s1 s2 : List Char) (a b c d : Int) (ub : Bool)
    (k : Int) (r : ScoredAlignment)
    (h : fullyGlobalAlignment s1 s2 a b c d ub k = .ok r) :
    rescoreOperations ⟨a, b, c, d⟩ r.operations = r.score := by
  obtain ⟨hk, hr⟩ := fga_ok_elim h
  have hgb : goodBand (runParams s1 s2 ⟨a, b, c, d⟩ ub k) := by
    apply goodBand_runParams
    intro hub
    by_contra hlt
    exact hk ⟨hub, by omega⟩
  obtain ⟨v, hv⟩ := corner_isSome _ hgb
  have hcb : cornerBest (runParams s1 s2 ⟨a, b, c, d⟩ ub k) = some v := hv
  have hst : val (runParams s1 s2 ⟨a, b, c, d⟩ ub k)
      (cornerState (runParams s1 s2 ⟨a, b, c, d⟩ ub k))
      (runParams s1 s2 ⟨a, b, c, d⟩ ub k).s1.length
      (runParams s1 s2 ⟨a, b, c, d⟩ ub k).s2.length = some v := by
    unfold cornerState
    rw [val_pick3 (runParams s1 s2 ⟨a, b, c, d⟩ ub k)
      (runParams s1 s2 ⟨a, b, c, d⟩ ub k).s1.length
      (runParams s1 s2 ⟨a, b, c, d⟩ ub k).s2.length]
    exact hv
  have htr := tbF_rescore (runParams s1 s2 ⟨a, b, c, d⟩ ub k)
    (s1.length + s2.length) (cornerState (runParams s1 s2 ⟨a, b, c, d⟩ ub k))
    s1.length s2.length [] v le_rfl hst
  rw [hr]
  show rescoreOperations ⟨a, b, c, d⟩ (rle _) = (cornerBest _).getD 0
  rw [rescoreOperations_rle, hcb]
  show rescoreUnits (runParams s1 s2 ⟨a, b, c, d⟩ ub k).sm none _ = v
  rw [htr]
  show v + rescoreUnits _ _ [] = v
  simp [rescoreUnits]

theorem C1_witness :
    rescoreOperations ⟨1, -1, -2, -1⟩
        (ScoredAlignment.mk 1
          [(OpKind.Match, 2), (OpKind.InsertionInFirst, 1), (OpKind.Match, 1)]).operations
      = (ScoredAlignment.mk 1
          [(OpKind.Match, 2), (OpKind.InsertionInFirst, 1), (OpKind.Match, 1)]).score :=
  C1_self_consistency ['A', 'C', 'G', 'T'] ['A', 'C', 'T'] 1 (-1) (-2) (-1)
    false 1000 _ (by rfl)

/-- C2: every result covers both sequences completely — the lengths of the
Match, Mismatch and InsertionInFirst operations sum to `|s1|`, those of
Match, Mismatch and InsertionInSecond sum to `|s2|`, and every operation
has length at least 1 (banded or not, any band size the call accepts). -/
theorem C2_full_coverage (s1 s2 : List Char) (a b c d : Int) (ub : Bool)
    (k : Int) (r : ScoredAlignment)
    (h : fullyGlobalAlignment s1 s2 a b c d ub k = .ok r) :
    opsLen consumesFirst r.operations = s1.length ∧
    opsLen consumesSecond r.operations = s2.length ∧
    ∀ op ∈ r.operations, 1 ≤ op.2 := by
  obtain ⟨hk, hr⟩ := fga_ok_elim h
  rw [hr]
  have hcnt := tbF_count (runParams s1 s2 ⟨a, b, c, d⟩ ub k)
    (s1.length + s2.length) (cornerState (runParams s1 s2 ⟨a, b, c, d⟩ ub k))
    s1.length s2.length [] le_rfl
  refine ⟨?_, ?_, ?_⟩
  · show opsLen consumesFirst (rle _) = s1.length
    rw [opsLen_rle, hcnt.1]
    rfl
  · show opsLen consumesSecond (rle _) = s2.length
    rw [opsLen_rle, hcnt.2]
    rfl
  · intro op hop
    exact rle_len_pos _ op.1 op.2 hop

theorem C2_witness :
    opsLen consumesFirst (ScoredAlignment.mk 1
        [(OpKind.Match, 2), (OpKind.InsertionInFirst, 1), (OpKind.Match, 1)]).operations
      = (['A', 'C', 'G', 'T'] : List Char).length ∧
    opsLen consumesSecond (ScoredAlignment.mk 1
        [(OpKind.Match, 2), (OpKind.InsertionInFirst, 1), (OpKind.Match, 1)]).operations
      = (['A', 'C', 'T'] : List Char).length ∧
    ∀ op ∈ (ScoredAlignment.mk 1
        [(OpKind.Match, 2), (OpKind.InsertionInFirst, 1), (OpKind.Match, 1)]).operations,
      1 ≤ op.2 :=
  C2_full_coverage ['A', 'C', 'G', 'T'] ['A', 'C', 'T'] 1 (-1) (-2) (-1)
    false 1000 _ (by rfl)

/-- C3: the unbanded alignment's returned score is the maximum over the
three Gotoh states at cell `(|s1|, |s2|)` of the tables defined by the
affine-gap recurrence with base row/column set to the accumulating
leading-gap cost (`gotoh` restates that recurrence verbatim). -/
theorem C3_unbanded_score_eq_recurrence (s1 s2 : List Char) (a b c d : Int)
    (k : Int) (r : ScoredAlignment)
    (h : fullyGlobalAlignment s1 s2 a b c d false k = .ok r) :
    omax (gotoh s1 s2 ⟨a, b, c, d⟩ .D s1.length s2.length)
      (omax (gotoh s1 s2 ⟨a, b, c, d⟩ .F s1.length s2.length)
        (gotoh s1 s2 ⟨a, b, c, d⟩ .G s1.length s2.length)) = some r.score := by
  obtain ⟨hk, hr⟩ := fga_ok_elim h
  have hgb : goodBand (⟨s1, s2, ⟨a, b, c, d⟩, none⟩ : AlignParams) := trivial
  obtain ⟨v, hv⟩ := corner_isSome ⟨s1, s2, ⟨a, b, c, d⟩, none⟩ hgb
  have hcb : cornerBest (runParams s1 s2 ⟨a, b, c, d⟩ false k) = some v := hv
  have hsc : r.score = v := by
    rw [hr]
    show (cornerBest _).getD 0 = v
    rw [hcb]
    rfl
  rw [hsc]
  rw [← val_eq_gotoh s1 s2 ⟨a, b, c, d⟩ (s1.length + s2.length) .D s1.length s2.length le_rfl,
    ← val_eq_gotoh s1 s2 ⟨a, b, c, d⟩ (s1.length + s2.length) .F s1.length s2.length le_rfl,
    ← val_eq_gotoh s1 s2 ⟨a, b, c, d⟩ (s1.length + s2.length) .G s1.length s2.length le_rfl]
  exact hv

theorem C3_witness :
    omax (gotoh ['A', 'C'] ['A'] ⟨1, -1, -2, -1⟩ .D 2 1)
      (omax (gotoh ['A', 'C'] ['A'] ⟨1, -1, -2, -1⟩ .F 2 1)
        (gotoh ['A', 'C'] ['A'] ⟨1, -1, -2, -1⟩ .G 2 1))
      = some (ScoredAlignment.mk (-1)
          [(OpKind.Match, 1), (OpKind.InsertionInFirst, 1)]).score :=
  C3_unbanded_score_eq_recurrence ['A', 'C'] ['A'] 1 (-1) (-2) (-1) 1000 _ (by rfl)

/-- Scoring a same-kind gap run after a unit of that same kind costs pure
extensions. -/
theorem rescoreUnits_gap_ext (sm : ScoreModel) (kk : OpKind)
    (hk : kk = .InsertionInFirst ∨ kk = .InsertionInSecond) :
    ∀ L : Nat, rescoreUnits sm (some kk) (List.replicate L kk)
      = (L : Int) * sm.gapExtensionScore := by
  intro L
  induction L with
  | zero => simp [rescoreUnits]
  | succ L IH =>
    rw [List.replicate_succ]
    simp only [rescoreUnits, IH]
    have hstep : stepCost sm (some kk) kk = sm.gapExtensionScore := by
      rcases hk with hk | hk <;> subst hk <;> simp [stepCost]
    rw [hstep]
    push_cast
    ring

theorem rescoreUnits_gap_run (sm : ScoreModel) (kk : OpKind)
    (hk : kk = .InsertionInFirst ∨ kk = .InsertionInSecond)
    (L : Nat) (hL : 1 ≤ L) :
    rescoreUnits sm none (List.replicate L kk) = gapCost sm L := by
  obtain ⟨L', rfl⟩ : ∃ L', L = L' + 1 := ⟨L - 1, by omega⟩
  rw [List.replicate_succ]
  simp only [rescoreUnits]
  rw [rescoreUnits_gap_ext sm kk hk L']
  have hstep : stepCost sm none kk = sm.gapOpenScore := by
    rcases hk with hk | hk <;> subst hk <;> simp [stepCost]
  rw [hstep]
  unfold gapCost
  push_cast
  ring

/-- C4: the affine gap-cost law and the substitution score, as pure total
functions: a single contiguous gap run of length `L ≥ 1` contributes
exactly `gapOpenScore + (L-1)*gapExtensionScore` (both as a unit sequence
and as a run-length-encoded operation), and
`substitutionScore a b = matchScore` when `a = b`, else `mismatchScore`. -/
theorem C4_affine_gap_law (sm : ScoreModel) (a b : Char) (L : Nat) (hL : 1 ≤ L) :
    substitutionScore sm a b
      = (if a = b then sm.matchScore else sm.mismatchScore) ∧
    gapCost sm L = sm.gapOpenScore + ((L : Int) - 1) * sm.gapExtensionScore ∧
    rescoreUnits sm none (List.replicate L .InsertionInFirst) = gapCost sm L ∧
    rescoreUnits sm none (List.replicate L .InsertionInSecond) = gapCost sm L ∧
    rescoreOperations sm [(OpKind.InsertionInFirst, L)] = gapCost sm L ∧
    rescoreOperations sm [(OpKind.InsertionInSecond, L)] = gapCost sm L := by
  refine ⟨rfl, rfl, ?_, ?_, ?_, ?_⟩
  · exact rescoreUnits_gap_run sm _ (Or.inl rfl) L hL
  · exact rescoreUnits_gap_run sm _ (Or.inr rfl) L hL
  · simp [rescoreOperations, runScore, gapCost]
  · simp [rescoreOperations, runScore, gapCost]

theorem C4_witness :
    substitutionScore ⟨2, -3, -5, -2⟩ 'A' 'A'
      = (if 'A' = 'A' then (2 : Int) else -3) ∧
    gapCost ⟨2, -3, -5, -2⟩ 4 = -5 + ((4 : Int) - 1) * -2 ∧
    rescoreUnits ⟨2, -3, -5, -2⟩ none (List.replicate 4 .InsertionInFirst)
      = gapCost ⟨2, -3, -5, -2⟩ 4 ∧
    rescoreUnits ⟨2, -3, -5, -2⟩ none (List.replicate 4 .InsertionInSecond)
      = gapCost ⟨2, -3, -5, -2⟩ 4 ∧
    rescoreOperations ⟨2, -3, -5, -2⟩ [(OpKind.InsertionInFirst, 4)]
      = gapCost ⟨2, -3, -5, -2⟩ 4 ∧
    rescoreOperations ⟨2, -3, -5, -2⟩ [(OpKind.InsertionInSecond, 4)]
      = gapCost ⟨2, -3, -5, -2⟩ 4 :=
  C4_affine_gap_law ⟨2, -3, -5, -2⟩ 'A' 'A' 4 (by omega)

/-- C5: for fixed inputs and score model, the unbanded score is at least
the banded score, for every accepted band size `k ≥ 1` — banding only
removes candidate paths. -/
theorem C5_banding_monotone (s1 s2 : List Char) (a b c d : Int) (k k' : Int)
    (r1 r2 : ScoredAlignment)
    (h1 : fullyGlobalAlignment s1 s2 a b c d true k = .ok r1)
    (h2 : fullyGlobalAlignment s1 s2 a b c d false k' = .ok r2) :
    r1.score ≤ r2.score := by
  obtain ⟨hk1, hr1⟩ := fga_ok_elim h1
  obtain ⟨hk2, hr2⟩ := fga_ok_elim h2
  have hk : 1 ≤ k := by
    by_contra hlt
    exact hk1 ⟨rfl, by omega⟩
  have hgbB : goodBand (runParams s1 s2 ⟨a, b, c, d⟩ true k) :=
    goodBand_runParams _ _ _ _ _ (fun _ => hk)
  have hgbU : goodBand (runParams s1 s2 ⟨a, b, c, d⟩ false k') := trivial
  obtain ⟨v1, hv1⟩ := corner_isSome _ hgbB
  obtain ⟨v2, hv2⟩ := corner_isSome _ hgbU
  have hcb1 : cornerBest (runParams s1 s2 ⟨a, b, c, d⟩ true k) = some v1 := hv1
  have hcb2 : cornerBest (runParams s1 s2 ⟨a, b, c, d⟩ false k') = some v2 := hv2
  have hmono : ole (cornerBest (runParams s1 s2 ⟨a, b, c, d⟩ true k))
      (cornerBest (runParams s1 s2 ⟨a, b, c, d⟩ false k')) := by
    show ole (omax (val _ .D s1.length s2.length)
        (omax (val _ .F s1.length s2.length) (val _ .G s1.length s2.length)))
      (omax (val _ .D s1.length s2.length)
        (omax (val _ .F s1.length s2.length) (val _ .G s1.length s2.length)))
    exact omax_ole_omax
      (val_band_mono s1 s2 ⟨a, b, c, d⟩ _ .D s1.length s2.length)
      (omax_ole_omax
        (val_band_mono s1 s2 ⟨a, b, c, d⟩ _ .F s1.length s2.length)
        (val_band_mono s1 s2 ⟨a, b, c, d⟩ _ .G s1.length s2.length))
  rw [hcb1, hcb2] at hmono
  have hle : v1 ≤ v2 := hmono
  rw [hr1, hr2]
  show (cornerBest _).getD 0 ≤ (cornerBest _).getD 0
  rw [hcb1, hcb2]
  exact hle

theorem C5_witness :
    (ScoredAlignment.mk (-3)
        [(OpKind.Match, 1), (OpKind.InsertionInFirst, 3)]).score ≤
      (ScoredAlignment.mk (-3)
        [(OpKind.Match, 1), (OpKind.InsertionInFirst, 3)]).score :=
  C5_banding_monotone ['A', 'C', 'G', 'T'] ['A'] 1 (-1) (-2) (-1) 1 1000 _ _
    (by rfl) (by rfl)

/-- C6 counterexample: for the empty sequence, aligning it against itself
yields the empty operation list, not a single all-Match run of length 0 —
operations always have length at least 1, so a length-0 run never occurs. -/
theorem C6_counterexample :
    fullyGlobalAlignment [] [] 1 (-1) (-2) (-1) false 1000
      = .ok ⟨0, []⟩ ∧
    (ScoredAlignment.mk 0 ([] : List (OpKind × Nat))).operations
      ≠ [(OpKind.Match, 0)] := by
  exact ⟨rfl, by simp⟩

/-- C6 (amended): aligning any sequence `s` against itself with
`matchScore=1, mismatchScore=-1, gapOpenScore=-2, gapExtensionScore=-1`
yields score `|s|`, and the operation sequence is the single run
`[Match × |s|]` when `s` is nonempty and empty when `s` is empty. -/
theorem C6_identity_alignment (s : List Char) (k : Int) (r : ScoredAlignment)
    (h : fullyGlobalAlignment s s 1 (-1) (-2) (-1) false k = .ok r) :
    r.score = (s.length : Int) ∧
    r.operations = if s.length = 0 then [] else [(OpKind.Match, s.length)] := by
  obtain ⟨hk, hr⟩ := fga_ok_elim h
  have hD := ident_diag s s.length
  have hF := ident_bound s (s.length + s.length) .F s.length s.length le_rfl
  have hG := ident_bound s (s.length + s.length) .G s.length s.length le_rfl
  rw [dBound_diag] at hF hG
  have hcb : cornerBest (runParams s s ⟨1, -1, -2, -1⟩ false k)
      = some (s.length : Int) := by
    show omax (val (⟨s, s, identSM, none⟩ : AlignParams) .D s.length s.length)
      (omax (val (⟨s, s, identSM, none⟩ : AlignParams) .F s.length s.length)
        (val (⟨s, s, identSM, none⟩ : AlignParams) .G s.length s.length))
      = some (s.length : Int)
    rw [hD, omax_eq_left_of_ole (omax_le hF hG)]
  have hst : cornerState (runParams s s ⟨1, -1, -2, -1⟩ false k) = .D := by
    show pick3 (val (⟨s, s, identSM, none⟩ : AlignParams) .D s.length s.length)
      (val (⟨s, s, identSM, none⟩ : AlignParams) .F s.length s.length)
      (val (⟨s, s, identSM, none⟩ : AlignParams) .G s.length s.length) = .D
    unfold pick3
    rw [hD]
    exact if_pos ⟨hF, hG⟩
  refine ⟨?_, ?_⟩
  · rw [hr]
    show (cornerBest _).getD 0 = (s.length : Int)
    rw [hcb]
    rfl
  · rw [hr]
    show rle (tbF (runParams s s ⟨1, -1, -2, -1⟩ false k) (s.length + s.length)
      (cornerState (runParams s s ⟨1, -1, -2, -1⟩ false k)) s.length s.length [])
      = if s.length = 0 then [] else [(OpKind.Match, s.length)]
    rw [hst]
    show rle (tbF (⟨s, s, identSM, none⟩ : AlignParams) (s.length + s.length)
      .D s.length s.length []) = if s.length = 0 then [] else [(OpKind.Match, s.length)]
    have htb := ident_tb s s.length (s.length + s.length) [] (by omega)
    rw [htb]
    rw [List.append_nil]
    by_cases h0 : s.length = 0
    · rw [if_pos h0, h0]
      rfl
    · rw [if_neg h0]
      exact rle_replicate OpKind.Match s.length (by omega)

theorem C6_witness :
    (ScoredAlignment.mk 4 [(OpKind.Match, 4)]).score
      = (((['A', 'C', 'G', 'T'] : List Char)).length : Int) ∧
    (ScoredAlignment.mk 4 [(OpKind.Match, 4)]).operations
      = if (['A', 'C', 'G', 'T'] : List Char).length = 0 then []
        else [(OpKind.Match, (['A', 'C', 'G', 'T'] : List Char).length)] :=
  C6_identity_alignment ['A', 'C', 'G', 'T'] 1000 _ (by rfl)

/-- C7: empty input sequences are accepted — aligning the empty sequence
against a nonempty `s2` of length `n` succeeds and produces the all-gap
alignment: score `gapOpenScore + (n-1)*gapExtensionScore`, operations a
single run `[InsertionInSecond × n]`. -/
theorem C7_empty_first_sequence (s2 : List Char) (a b c d k : Int)
    (hne : s2 ≠ []) :
    ∃ r : ScoredAlignment,
      fullyGlobalAlignment [] s2 a b c d false k = .ok r ∧
      r.score = c + ((s2.length : Int) - 1) * d ∧
      r.operations = [(OpKind.InsertionInSecond, s2.length)] := by
  have hnolen : 1 ≤ s2.length := by
    cases s2 with
    | nil => exact absurd rfl hne
    | cons x l => simp
  obtain ⟨m', hm⟩ : ∃ m', s2.length = m' + 1 := ⟨s2.length - 1, by omega⟩
  have hcond : ¬(false = true ∧ k < 1) := fun hc => by cases hc.1
  have hok : fullyGlobalAlignment [] s2 a b c d false k
      = .ok ⟨(cornerBest (runParams [] s2 ⟨a, b, c, d⟩ false k)).getD 0,
          rle (tbF (runParams [] s2 ⟨a, b, c, d⟩ false k)
            (([] : List Char).length + s2.length)
            (cornerState (runParams [] s2 ⟨a, b, c, d⟩ false k))
            ([] : List Char).length s2.length [])⟩ := by
    simp only [fullyGlobalAlignment, if_neg hcond]
  refine ⟨_, hok, ?_, ?_⟩
  · show (cornerBest (runParams [] s2 ⟨a, b, c, d⟩ false k)).getD 0
      = c + ((s2.length : Int) - 1) * d
    have hcb : cornerBest (runParams [] s2 ⟨a, b, c, d⟩ false k)
        = some (gapCost ⟨a, b, c, d⟩ s2.length) := by
      show omax (val (⟨[], s2, ⟨a, b, c, d⟩, none⟩ : AlignParams) .D 0 s2.length)
        (omax (val (⟨[], s2, ⟨a, b, c, d⟩, none⟩ : AlignParams) .F 0 s2.length)
          (val (⟨[], s2, ⟨a, b, c, d⟩, none⟩ : AlignParams) .G 0 s2.length))
        = some (gapCost ⟨a, b, c, d⟩ s2.length)
      rw [hm, val_D_0j, val_F_0j, val_G_row0 _ rfl m']
      rfl
    rw [hcb]
    show gapCost ⟨a, b, c, d⟩ s2.length = _
    unfold gapCost
    rfl
  · show rle (tbF (runParams [] s2 ⟨a, b, c, d⟩ false k)
      (([] : List Char).length + s2.length)
      (cornerState (runParams [] s2 ⟨a, b, c, d⟩ false k)) ([] : List Char).length
      s2.length []) = [(OpKind.InsertionInSecond, s2.length)]
    have hst : cornerState (runParams [] s2 ⟨a, b, c, d⟩ false k) = .G := by
      show pick3 (val (⟨[], s2, ⟨a, b, c, d⟩, none⟩ : AlignParams) .D 0 s2.length)
        (val (⟨[], s2, ⟨a, b, c, d⟩, none⟩ : AlignParams) .F 0 s2.length)
        (val (⟨[], s2, ⟨a, b, c, d⟩, none⟩ : AlignParams) .G 0 s2.length) = .G
      rw [hm, val_D_0j, val_F_0j, val_G_row0 _ rfl m']
      unfold pick3
      rw [if_neg (fun hc => hc.2)]
      exact if_neg (fun hc => hc)
    rw [hst]
    show rle (tbF (⟨[], s2, ⟨a, b, c, d⟩, none⟩ : AlignParams)
      (([] : List Char).length + s2.length) .G 0 s2.length [])
      = [(OpKind.InsertionInSecond, s2.length)]
    have htb := tbF_G_row0 (⟨[], s2, ⟨a, b, c, d⟩, none⟩ : AlignParams) rfl
      s2.length (([] : List Char).length + s2.length) [] (by simp)
    rw [htb, List.append_nil]
    exact rle_replicate OpKind.InsertionInSecond s2.length hnolen

theorem C7_witness :
    ∃ r : ScoredAlignment,
      fullyGlobalAlignment [] ['A', 'A', 'A', 'A'] 1 (-1) (-2) (-1) false 1000
        = .ok r ∧
      r.score = -2 + (((['A', 'A', 'A', 'A'] : List Char).length : Int) - 1) * -1 ∧
      r.operations = [(OpKind.InsertionInSecond, (['A', 'A', 'A', 'A'] : List Char).length)] :=
  C7_empty_first_sequence ['A', 'A', 'A', 'A'] 1 (-1) (-2) (-1) 1000 (by simp)

/-- C8: the call fails, with `InvalidParameter`, exactly when banding is
requested with `bandSize < 1`; the model's table construction always
succeeds, so no other error ever escapes (allocation exhaustion is a
resource fact of the host machine, outside the model). -/
theorem C8_error_iff (s1 s2 : List Char) (a b c d : Int) (ub : Bool) (k : Int) :
    ((∃ e, fullyGlobalAlignment s1 s2 a b c d ub k = .error e)
      ↔ (ub = true ∧ k < 1)) ∧
    (∀ e, fullyGlobalAlignment s1 s2 a b c d ub k = .error e
      → e = .invalidParameter) := by
  by_cases hc : ub = true ∧ k < 1
  · constructor
    · exact ⟨fun _ => hc,
        fun _ => ⟨.invalidParameter, by simp [fullyGlobalAlignment, if_pos hc]⟩⟩
    · intro e he
      simp only [fullyGlobalAlignment, if_pos hc, Except.error.injEq] at he
      exact he.symm
  · constructor
    · constructor
      · intro ⟨e, he⟩
        simp only [fullyGlobalAlignment, if_neg hc] at he
        exact absurd he (by simp)
      · intro habs
        exact absurd habs hc
    · intro e he
      simp only [fullyGlobalAlignment, if_neg hc] at he
      exact absurd he (by simp)

theorem C8_witness :
    (∃ e, fullyGlobalAlignment ['A'] ['C'] 1 (-1) (-2) (-1) true 0 = .error e) ∧
    ((['A'] : List Char) = ['A']) :=
  ⟨(C8_error_iff ['A'] ['C'] 1 (-1) (-2) (-1) true 0).1.mpr ⟨rfl, by decide⟩, rfl⟩

/-- C9: the engine is deterministic — identical arguments give identical
results — and ties are broken by the fixed priority Diagonal > GapInFirst >
GapInSecond: `pick3` returns the state carrying the three-way maximum,
choosing Diagonal whenever it ties for the maximum and GapInFirst over
GapInSecond otherwise, and the gap-state predecessor choices `pickF`,
`pickG` prefer Diagonal on ties. -/
theorem C9_deterministic :
    (∀ (s1 s2 : List Char) (a b c d : Int) (ub : Bool) (k : Int)
        (r1 r2 : Except AlignError ScoredAlignment),
        fullyGlobalAlignment s1 s2 a b c d ub k = r1 →
        fullyGlobalAlignment s1 s2 a b c d ub k = r2 → r1 = r2) ∧
    (∀ d f g : Option Int, sel3 d f g (pick3 d f g) = omax d (omax f g)) ∧
    (∀ d f g : Option Int, ole f d → ole g d → pick3 d f g = .D) ∧
    (∀ d f g : Option Int, ¬(ole f d ∧ ole g d) → ole g f → pick3 d f g = .F) ∧
    (∀ d f g : Option Int, ¬(ole f d ∧ ole g d) → ¬ ole g f → pick3 d f g = .G) ∧
    (∀ (P : AlignParams) (i j : Nat),
        ole (oadd (val P .F i j) P.sm.gapExtensionScore)
          (oadd (val P .D i j) P.sm.gapOpenScore) → pickF P i j = .D) ∧
    (∀ (P : AlignParams) (i j : Nat),
        ole (oadd (val P .G i j) P.sm.gapExtensionScore)
          (oadd (val P .D i j) P.sm.gapOpenScore) → pickG P i j = .D) := by
  refine ⟨?_, sel3_pick3, ?_, ?_, ?_, ?_, ?_⟩
  · intro s1 s2 a b c d ub k r1 r2 h1 h2
    exact h1.symm.trans h2
  · intro d f g h1 h2
    exact if_pos ⟨h1, h2⟩
  · intro d f g h1 h2
    unfold pick3
    rw [if_neg h1]
    exact if_pos h2
  · intro d f g h1 h2
    unfold pick3
    rw [if_neg h1]
    exact if_neg h2
  · intro P i j h
    exact if_pos h
  · intro P i j h
    exact if_pos h

theorem C9_witness :
    fullyGlobalAlignment ['A', 'C'] ['A', 'C'] 1 (-1) (-2) (-1) false 1000
      = Except.ok (ScoredAlignment.mk 2 [(OpKind.Match, 2)]) :=
  C9_deterministic.1 ['A', 'C'] ['A', 'C'] 1 (-1) (-2) (-1) false 1000 _ _
    rfl (by rfl)

end GlobalAlign
